import Mathlib

/-! Verification development for the caching / locking / filename-sanitization
layer of a media-download HTTP service (`yt_api.py`).

The Python source is embedded shallowly:

* pure helpers (`sanitize_title`, `find_existing_file`, the type-defaulting
  logic of the handlers) become Lean functions on `String` / `List Char`;
* the downloads directory and the in-memory `url_cache` dict become an
  explicit `Sys` state (`files` is the list of basenames present in the
  directory, including lock marker files; `cache` is an association list
  read through its most recent binding, matching dict semantics);
* the external `yt-dlp` subprocess is an oracle (`DlOutcome`): on success it
  deposits a set of files, otherwise it raises `CalledProcessError`
  (`procError`), `TimeoutExpired` (`timedOut`) or any other exception
  (`other`);
* the wall clock read by the sanitizer fallback (`int(time.time())`) is an
  explicit `now : Nat` parameter;
* Python's Unicode word-character class `\w` is an abstract parameter
  `w : Char → Bool`; theorems assume only facts true of the real class
  (it contains no reserved, control or whitespace characters), and
  `asciiWord` is a concrete executable instance used for evaluation;
* concurrent interference while a handler sleeps in its polling loop is an
  explicit environment `step : Nat → Sys → Sys` applied once per tick.

`glob.glob` is modelled on basenames: a leading `*` never matches a name
starting with a dot (hidden files), `matches[0]` is the first match in
directory order, and video ids are treated as glob-literal (they contain no
glob metacharacters: ids are 11 characters of `[0-9A-Za-z_-]` or a hex hash).
The success payloads of `/download` (a JSON body embedding the url-quoted
filename) and `/get` (the raw file) are modelled by `Resp` constructors
carrying the resolved filename. -/

/-! ## Filename sanitizer (`sanitize_title`) -/

/-- Characters replaced by the first substitution
`re.sub(r"[<>:\"/\\|?*\n\r\t]", "_", title)` in `sanitize_title`. -/
def reservedChars : List Char := ['<', '>', ':', '"', '/', '\\', '|', '?', '*', '\n', '\r', '\t']

/-- Membership in the Python strip set `"_.-"` used by `strip` / `rstrip`. -/
def isSep (c : Char) : Bool := c = '_' || c = '.' || c = '-'

/-- Unicode control characters (category Cc): U+0000–U+001F and U+007F–U+009F. -/
def pyIsControl (c : Char) : Bool :=
  decide (c.toNat < 32 ∨ (127 ≤ c.toNat ∧ c.toNat ≤ 159))

/-- Concrete instance of the `\w` class restricted to ASCII: letters, digits
and underscore.  Python's Unicode `\w` additionally contains non-ASCII word
characters; all theorems about the sanitizer only assume facts that hold for
the full Unicode class as well. -/
def asciiWord (c : Char) : Bool :=
  decide ((48 ≤ c.toNat ∧ c.toNat ≤ 57) ∨ (65 ≤ c.toNat ∧ c.toNat ≤ 90) ∨
    (97 ≤ c.toNat ∧ c.toNat ≤ 122) ∨ c.toNat = 95)

/-- The character class kept by `re.sub(r"[^\w\-\._]+", "_", safe)`:
word characters plus dot, dash, underscore. -/
def keepChar (w : Char → Bool) (c : Char) : Bool := w c || isSep c

/-- `title.replace("⧸", "_").replace("⁄", "_")`: unicode slash-like
separators become underscores. -/
def slashFix (c : Char) : Char :=
  if c = '⧸' ∨ c = '⁄' then '_' else c

/-- One character of `re.sub(r"[<>:\"/\\|?*\n\r\t]", "_", title)`. -/
def reservedFix (c : Char) : Char := if c ∈ reservedChars then '_' else c

/-- Replace every maximal run of characters rejected by `keep` with a single
underscore (the semantics of `re.sub(r"[^X]+", "_", s)`).  The boolean flag
records whether the previous character was part of a replaced run. -/
def subRunsAux (keep : Char → Bool) : Bool → List Char → List Char
  | _, [] => []
  | inRun, c :: cs =>
    if keep c then c :: subRunsAux keep false cs
    else if inRun then subRunsAux keep inRun cs
    else '_' :: subRunsAux keep true cs

/-- `s.rstrip("_.-")` on a character list: drop trailing separator characters. -/
def pyRstrip : List Char → List Char
  | [] => []
  | c :: cs =>
    match pyRstrip cs with
    | [] => if isSep c then [] else [c]
    | res => c :: res

/-- `s.strip("_.-")` on a character list. -/
def pyStrip (l : List Char) : List Char := pyRstrip (l.dropWhile isSep)

/-- Decimal digit character for `d < 10` (used to render the timestamp). -/
def decDigit (d : Nat) : Char := Char.ofNat (48 + d)

/-- Auxiliary decimal rendering with fuel (the fuel `n + 1` always suffices). -/
def natDigitsAux : Nat → Nat → List Char → List Char
  | 0, _, acc => acc
  | fuel + 1, n, acc =>
    if n < 10 then decDigit n :: acc
    else natDigitsAux fuel (n / 10) (decDigit (n % 10) :: acc)

/-- Decimal rendering of a natural number, modelling Python's `f"{int(...)}"`. -/
def natDigits (n : Nat) : List Char := natDigitsAux (n + 1) n []

/-- The fallback token `f"file_{int(time.time())}"` substituted when the
sanitized core is empty; `now` is the current unix timestamp. -/
def fallbackName (now : Nat) : List Char :=
  'f' :: 'i' :: 'l' :: 'e' :: '_' :: natDigits now

/-- The sanitization pipeline of `sanitize_title` up to (and including) the
`strip("_.-")` step: unicode-slash fix, reserved-character substitution,
non-word-run substitution, underscore collapsing, strip. -/
def sanitizeCore (w : Char → Bool) (title : List Char) : List Char :=
  pyStrip (subRunsAux (fun c => !(c == '_')) false
    (subRunsAux (keepChar w) false (title.map (fun c => reservedFix (slashFix c)))))

/-- `sanitize_title(title, max_len)` from `yt_api.py`.  `w` is the `\w`
class, `now` the unix timestamp read by the empty-result fallback. -/
def sanitize_title (w : Char → Bool) (now : Nat) (title : String) (maxLen : Nat) : String :=
  let core := sanitizeCore w title.data
  let safe := if core = [] then fallbackName now else core
  ⟨if maxLen < safe.length then pyRstrip (safe.take maxLen) else safe⟩

/-- The first character, if any, is not a separator. -/
def headOk (l : List Char) : Bool :=
  match l.head? with
  | some c => !isSep c
  | none => true

/-- The last character, if any, is not a separator. -/
def lastOk (l : List Char) : Bool :=
  match l.getLast? with
  | some c => !isSep c
  | none => true

/-! ## System state: downloads directory and cache -/

/-- The mutable state shared by all handlers: the basenames present in the
downloads directory (lock marker files included) and the in-memory
`url_cache` mapping, as an association list read through its first
(most recent) binding. -/
structure Sys where
  files : List String
  cache : List (String × String)
deriving DecidableEq

/-- Dict read: the most recent binding for `k`, if any. -/
def cacheGet (c : List (String × String)) (k : String) : Option String :=
  (c.find? (fun p => p.1 == k)).map (fun p => p.2)

/-- `url_cache[k] = f` followed by the (best-effort, error-swallowing)
`save_cache()` persist, which does not affect the mapping itself. -/
def cachePut (k f : String) (s : Sys) : Sys :=
  { s with cache := (k, f) :: s.cache }

/-- `cache_key = f"{video_id}_{file_type}"`. -/
def mkKey (vid ft : String) : String := vid ++ "_" ++ ft

/-! ## Disk reconciliation (`find_existing_file`) -/

/-- Extension preference order per kind, from `find_existing_file`. -/
def extensionsFor (ft : String) : List String :=
  if ft = "audio" then ["mp3", "m4a", "wav", "flac", "ogg"]
  else ["mp4", "webm", "mkv", "avi", "mov"]

/-- A name is hidden from a leading glob `*` when it starts with a dot. -/
def isHidden (n : String) : Bool := n.data.head? == some '.'

/-- `p` is a suffix of `l` (as character lists). -/
def endsWithList (p l : List Char) : Bool := l.drop (l.length - p.length) == p

/-- `p` is a prefix of `l` (as character lists). -/
def beginsWithList (p l : List Char) : Bool := l.take p.length == p

/-- Glob pattern `f"*__{video_id}.{ext}"`: any non-hidden name ending in
`__<id>.<ext>`. -/
def suffixPat (vid ext n : String) : Bool :=
  !isHidden n && endsWithList ("__" ++ vid ++ "." ++ ext).data n.data

/-- Glob pattern `f"{video_id}*.{ext}"`: a name of shape `<id><mid>.<ext>`;
when the id is empty the pattern starts with `*` and hidden names are
excluded. -/
def prefixPat (vid ext n : String) : Bool :=
  (!vid.isEmpty || !isHidden n) &&
    beginsWithList vid.data n.data &&
    endsWithList ("." ++ ext).data n.data &&
    decide (vid.length + ext.length + 1 ≤ n.length)

/-- The directory scan of `find_existing_file`: for each extension in
preference order, first the `*__<id>.<ext>` glob, then the `<id>*.<ext>`
glob; the first match in directory order wins. -/
def scanDisk (files : List String) (vid : String) : List String → Option String
  | [] => none
  | ext :: rest =>
    match files.find? (fun n => suffixPat vid ext n) with
    | some n => some n
    | none =>
      match files.find? (fun n => prefixPat vid ext n) with
      | some n => some n
      | none => scanDisk files vid rest

/-- `find_existing_file(video_id, file_type)`: a cache entry confirmed on
disk wins; a missing or dangling entry falls through to the disk scan. -/
def find_existing_file (s : Sys) (vid ft : String) : Option String :=
  match cacheGet s.cache (mkKey vid ft) with
  | some f => if f ∈ s.files then some f else scanDisk s.files vid (extensionsFor ft)
  | none => scanDisk s.files vid (extensionsFor ft)

/-- The interleaved pattern list actually searched by `find_existing_file`
for a given extension order. -/
def patList (vid : String) : List String → List (String → Bool)
  | [] => []
  | e :: es => (fun n => suffixPat vid e n) :: (fun n => prefixPat vid e n) :: patList vid es

/-- First name matching the first pattern that matches anything. -/
def firstMatch (files : List String) : List (String → Bool) → Option String
  | [] => none
  | p :: ps =>
    match files.find? p with
    | some n => some n
    | none => firstMatch files ps

/-- Precedence rank of a name: index of the first pattern it matches
(`length` when it matches none). -/
def patRank (vid ft n : String) : Nat :=
  (patList vid (extensionsFor ft)).findIdx (fun p => p n)

/-! ## Advisory lock manager -/

/-- Lock marker basename `f".{key}.lock"`. -/
def lockName (key : String) : String := "." ++ key ++ ".lock"

/-- `create_lock(key)`: atomic `os.open(..., O_CREAT | O_EXCL | O_WRONLY)` on
the marker file.  Busy (the marker already exists) yields `none` and leaves
the directory untouched; success creates the marker (its pid body is
diagnostic only and not modelled) and returns its path. -/
def create_lock (key : String) (s : Sys) : Option String × Sys :=
  let lf := lockName key
  if lf ∈ s.files then (none, s)
  else (some lf, { s with files := lf :: s.files })

/-- `remove_lock(lockfile)`: unlink if present, errors swallowed. -/
def remove_lock (lf : String) (s : Sys) : Sys :=
  { s with files := s.files.erase lf }

/-! ## Download orchestrator (`/download` and `/get` handlers) -/

/-- Outcome of the `subprocess.run(yt-dlp ...)` download invocation:
success deposits files in the directory, the other constructors are the
exception classes caught by the handlers. -/
inductive DlOutcome where
  | success (newFiles : List String)
  | procError (msg : String)
  | timedOut
  | other (msg : String)
deriving DecidableEq

/-- Environment for one handler run: downloader outcome, whether an attempted
`os.rename` succeeds, interference applied during each 1-second sleep of the
polling loop, the `\w` class and the clock for the sanitizer. -/
structure DlEnv where
  outcome : DlOutcome
  renameOk : Bool
  step : Nat → Sys → Sys
  wordChar : Char → Bool
  now : Nat

/-- HTTP-level result.  `ok ft f cached` models the `/download` JSON success
body (whose `file` field embeds the url-quoted filename `f`); `fileResp f`
models the `/get` `FileResponse` serving `f`; `err code msg` models a
`JSONResponse` error body with its status code. -/
inductive Resp where
  | ok (ftype file : String) (cached : Bool)
  | fileResp (file : String)
  | err (code : Nat) (msg : String)
deriving DecidableEq

/-- The resolved filename carried by a success response, if any. -/
def respFile : Resp → Option String
  | .ok _ f _ => some f
  | .fileResp f => some f
  | .err _ _ => none

/-- The `cached` flag of a `/download` success body, if any. -/
def cachedFlag : Resp → Option Bool
  | .ok _ _ c => some c
  | _ => none

/-- Observable events of a handler run. -/
inductive Ev where
  | acquireOk
  | acquireFail
  | invoke
  | poll
deriving DecidableEq

/-- Which delivery the handler uses: `/download` returns a JSON body with a
redirect URL, `/get` returns the file itself. -/
inductive Deliver where
  | json
  | raw
deriving DecidableEq

/-- Success response builder shared by the cached and fresh paths. -/
def successResp : Deliver → String → String → Bool → Resp
  | .json, ft, f, cached => .ok ft f cached
  | .raw, _, f, _ => .fileResp f

/-- Request body `{url, type}` with `type` defaulting to `"audio"`. -/
structure DownloadRequest where
  url : String
  type : String := "audio"
deriving DecidableEq

/-- ASCII lowering of one character.  Python's `str.lower()` is
Unicode-aware; only its ASCII behaviour is relevant here, because the only
values compared against are the ASCII literals `"audio"` and `"video"`. -/
def lowerChar (c : Char) : Char :=
  if 65 ≤ c.toNat ∧ c.toNat ≤ 90 then Char.ofNat (c.toNat + 32) else c

/-- `s.lower()` on the characters of a string. -/
def pyLower (s : String) : String := ⟨s.data.map lowerChar⟩

/-- `file_type = (req.type or "audio").lower()` followed by
`if file_type not in ("audio", "video"): file_type = "audio"`. -/
def effectiveType (t : String) : String :=
  let ft := pyLower (if t = "" then "audio" else t)
  if ft = "audio" || ft = "video" then ft else "audio"

/-- The downloader deposits its output files: names already present are not
duplicated (a directory holds each basename once). -/
def fsAdd (files : List String) (n : String) : List String :=
  if n ∈ files then files else n :: files

/-- Add a batch of downloader outputs to the directory. -/
def fsAddList (new : List String) (files : List String) : List String :=
  new.foldl fsAdd files

/-- `os.rename(old, new)`: the old name disappears, the new one appears. -/
def fsRename (old new : String) (s : Sys) : Sys :=
  { s with files := new :: s.files.erase old }

/-- The post-download rename of both handlers: rename the found artifact
`df` to the clean name only when they differ and the clean name is not
already taken (`if downloaded_file != clean_filename and not
os.path.exists(clean_path)`); an attempted rename may fail (`renameOk`
false), in which case the exception is swallowed and `df` is kept. -/
def renameStep (renameOk : Bool) (df clean : String) (s1 : Sys) : String × Sys :=
  if df ≠ clean ∧ clean ∉ s1.files then
    if renameOk then (clean, fsRename df clean s1) else (df, s1)
  else (df, s1)

/-- Continuation of the download phase after `subprocess.run` returns
success: the tool has deposited `newFiles`, the handler re-finds the
artifact on disk, renames it when safe, records it in the cache and removes
the lock (the following `os.chmod` is permission metadata only). -/
def downloadSuccess (d : Deliver) (renameOk : Bool) (clean vid ft ck lock : String)
    (newFiles : List String) (s : Sys) : Resp × Sys × List Ev :=
  let s1 : Sys := { s with files := fsAddList newFiles s.files }
  match find_existing_file s1 vid ft with
  | none => (.err 500 "Download completed but file not found", remove_lock lock s1, [.invoke])
  | some df =>
    let p := renameStep renameOk df clean s1
    (successResp d ft p.1 false, remove_lock lock (cachePut ck p.1 p.2), [.invoke])

/-- The download phase of both handlers (the `try:`/`finally:` block holding
the lock): run the downloader, re-find the artifact on disk, rename it to the
clean name only when that name is free, record the result in the cache, and
always remove the lock on exit.  `renameOk` models whether the attempted
`os.rename` raises (its failure is swallowed). -/
def tryDownload (d : Deliver) (outcome : DlOutcome) (renameOk : Bool) (w : Char → Bool)
    (now : Nat) (vid title ft ck lock : String) (s : Sys) : Resp × Sys × List Ev :=
  match outcome with
  | .other msg => (.err 500 ("Unexpected error: " ++ msg), remove_lock lock s, [])
  | .procError msg => (.err 500 msg, remove_lock lock s, [.invoke])
  | .timedOut =>
    (.err 500 "Download timeout - video may be too long or connection too slow",
      remove_lock lock s, [.invoke])
  | .success newFiles =>
    downloadSuccess d renameOk
      (sanitize_title w now title 120 ++ "." ++ (if ft = "audio" then "mp3" else "mp4"))
      vid ft ck lock newFiles s

/-- The bounded polling loop of the busy path: sleep one tick (during which
the environment acts), re-run the disk reconciliation, return the first file
found; give up after `fuel` attempts.  `i` is the index of the current tick.
Called with `fuel = 180`, `i = 0`. -/
def waitLoop (step : Nat → Sys → Sys) (d : Deliver) (vid ft ck : String) :
    Nat → Nat → Sys → Resp × Sys × List Ev
  | 0, _, s => (.err 500 "Timeout waiting for concurrent download", s, [])
  | fuel + 1, i, s =>
    let s1 := step i s
    match find_existing_file s1 vid ft with
    | some f => (successResp d ft f true, cachePut ck f s1, [.poll])
    | none =>
      let r := waitLoop step d vid ft ck fuel (i + 1) s1
      (r.1, r.2.1, .poll :: r.2.2)

/-- State of the directory after `n` ticks of the polling environment
starting from tick `i`. -/
def iterFrom (step : Nat → Sys → Sys) : Nat → Sys → Nat → Sys
  | _, s, 0 => s
  | i, s, n + 1 => iterFrom step (i + 1) (step i s) n

/-- Core of both handlers after identity resolution: cache/disk check, then
lock acquisition, then either the download phase or the polling wait. -/
def handleCore (d : Deliver) (env : DlEnv) (vid title ft ck : String) (s : Sys) :
    Resp × Sys × List Ev :=
  match find_existing_file s vid ft with
  | some f => (successResp d ft f true, cachePut ck f s, [])
  | none =>
    match create_lock ck s with
    | (none, s1) =>
      let r := waitLoop env.step d vid ft ck 180 0 s1
      (r.1, r.2.1, .acquireFail :: r.2.2)
    | (some lock, s1) =>
      let r := tryDownload d env.outcome env.renameOk env.wordChar env.now vid title ft ck lock s1
      (r.1, r.2.1, .acquireOk :: r.2.2)

/-- A handler run.  `vid`/`title` are the result of `get_video_info(url)`
(identity resolution by the external tool, a function of the url only);
`req.url` itself is consumed only by that resolution and is otherwise
unused. -/
def handleMedia (d : Deliver) (env : DlEnv) (vid title : String) (req : DownloadRequest)
    (s : Sys) : Resp × Sys × List Ev :=
  handleCore d env vid title (effectiveType req.type) (mkKey vid (effectiveType req.type)) s

/-- The `/download` handler `download_media` (JSON body with redirect URL). -/
def download_media (env : DlEnv) (vid title : String) (req : DownloadRequest) (s : Sys) :
    Resp × Sys × List Ev :=
  handleMedia .json env vid title req s

/-- The `/get` handler `get_media` (binary file response); its control flow
is line-for-line the same as `download_media`, differing only in the success
delivery. -/
def get_media (env : DlEnv) (vid title : String) (req : DownloadRequest) (s : Sys) :
    Resp × Sys × List Ev :=
  handleMedia .raw env vid title req s

/-! ## Sanitizer lemmas -/

theorem mem_subRunsAux {keep : Char → Bool} {b : Bool} {l : List Char} {c : Char}
    (h : c ∈ subRunsAux keep b l) : (c ∈ l ∧ keep c = true) ∨ c = '_' := by
  induction l generalizing b with
  | nil => simp [subRunsAux] at h
  | cons a t ih =>
    simp only [subRunsAux] at h
    by_cases hk : keep a
    · simp only [hk, if_true, List.mem_cons] at h
      rcases h with h | h
      · exact Or.inl ⟨by simp [h], h ▸ hk⟩
      · rcases ih h with ⟨h1, h2⟩ | h1
        · exact Or.inl ⟨List.mem_cons_of_mem _ h1, h2⟩
        · exact Or.inr h1
    · simp only [hk, if_false] at h
      cases b with
      | true =>
        rcases ih h with ⟨h1, h2⟩ | h1
        · exact Or.inl ⟨List.mem_cons_of_mem _ h1, h2⟩
        · exact Or.inr h1
      | false =>
        simp at h
        rcases h with h | h
        · exact Or.inr h
        · rcases ih h with ⟨h1, h2⟩ | h1
          · exact Or.inl ⟨List.mem_cons_of_mem _ h1, h2⟩
          · exact Or.inr h1

theorem subRunsAux_all_underscore {keep : Char → Bool} {b : Bool} {l : List Char}
    (h : ∀ c ∈ l, c = '_' ∨ keep c = false) :
    ∀ c ∈ subRunsAux keep b l, c = '_' := by
  intro c hc
  rcases mem_subRunsAux hc with ⟨h1, h2⟩ | h1
  · rcases h c h1 with h3 | h3
    · exact h3
    · rw [h3] at h2; cases h2
  · exact h1

theorem mem_of_mem_dropWhile {p : Char → Bool} {l : List Char} {c : Char}
    (h : c ∈ l.dropWhile p) : c ∈ l := by
  induction l with
  | nil => simp at h
  | cons a t ih =>
    by_cases hp : p a
    · rw [List.dropWhile_cons_of_pos hp] at h
      exact List.mem_cons_of_mem _ (ih h)
    · rwa [List.dropWhile_cons_of_neg hp] at h

theorem dropWhile_head_false {p : Char → Bool} {l t : List Char} {c : Char}
    (h : l.dropWhile p = c :: t) : p c = false := by
  induction l with
  | nil => simp at h
  | cons a s ih =>
    by_cases hp : p a
    · rw [List.dropWhile_cons_of_pos hp] at h
      exact ih h
    · rw [List.dropWhile_cons_of_neg hp] at h
      cases h
      simpa using hp

theorem dropWhile_eq_nil_of_all {p : Char → Bool} {l : List Char}
    (h : ∀ c ∈ l, p c = true) : l.dropWhile p = [] := by
  induction l with
  | nil => rfl
  | cons a t ih =>
    rw [List.dropWhile_cons_of_pos (h a (by simp))]
    exact ih (fun c hc => h c (List.mem_cons_of_mem _ hc))

theorem mem_pyRstrip {l : List Char} {c : Char} (h : c ∈ pyRstrip l) : c ∈ l := by
  induction l with
  | nil => simp [pyRstrip] at h
  | cons a t ih =>
    rw [pyRstrip] at h
    cases hr : pyRstrip t with
    | nil =>
      rw [hr] at h
      by_cases hs : isSep a
      · simp [hs] at h
      · simp [hs] at h; simp [h]
    | cons r rs =>
      rw [hr] at h
      simp only [List.mem_cons] at h
      rcases h with h | h
      · simp [h]
      · exact List.mem_cons_of_mem _ (ih (by rw [hr]; exact List.mem_cons.mpr h))

theorem pyRstrip_length_le (l : List Char) : (pyRstrip l).length ≤ l.length := by
  induction l with
  | nil => simp [pyRstrip]
  | cons a t ih =>
    rw [pyRstrip]
    cases hr : pyRstrip t with
    | nil =>
      by_cases hs : isSep a <;> simp [hs]
    | cons r rs =>
      rw [hr] at ih
      simpa using Nat.succ_le_succ ih

theorem pyRstrip_head? (l : List Char) :
    pyRstrip l = [] ∨ (pyRstrip l).head? = l.head? := by
  cases l with
  | nil => exact Or.inl rfl
  | cons a t =>
    rw [pyRstrip]
    cases hr : pyRstrip t with
    | nil =>
      by_cases hs : isSep a
      · simp [hs]
      · simp [hs]
    | cons r rs => simp

theorem pyRstrip_lastOk (l : List Char) : lastOk (pyRstrip l) = true := by
  induction l with
  | nil => simp [pyRstrip, lastOk]
  | cons a t ih =>
    rw [pyRstrip]
    cases hr : pyRstrip t with
    | nil =>
      by_cases hs : isSep a
      · simp [hs, lastOk]
      · simp [hs, lastOk, hs]
    | cons r rs =>
      rw [hr] at ih
      rw [lastOk] at ih ⊢
      rwa [List.getLast?_cons_cons]

theorem pyRstrip_ne_nil {l : List Char} {c : Char} (hh : l.head? = some c)
    (hs : isSep c = false) : pyRstrip l ≠ [] := by
  cases l with
  | nil => simp at hh
  | cons a t =>
    simp only [List.head?_cons, Option.some_inj] at hh
    subst hh
    rw [pyRstrip]
    cases hr : pyRstrip t with
    | nil => simp [hs]
    | cons r rs => simp

theorem pyStrip_headOk (l : List Char) : headOk (pyStrip l) = true := by
  rw [pyStrip]
  cases hd : l.dropWhile isSep with
  | nil => simp [pyRstrip, headOk]
  | cons a t =>
    have ha : isSep a = false := dropWhile_head_false hd
    rcases pyRstrip_head? (a :: t) with h | h
    · rw [h]; rfl
    · rw [headOk, h]
      simp [ha]

theorem pyStrip_lastOk (l : List Char) : lastOk (pyStrip l) = true :=
  pyRstrip_lastOk _

theorem mem_pyStrip {l : List Char} {c : Char} (h : c ∈ pyStrip l) : c ∈ l :=
  mem_of_mem_dropWhile (mem_pyRstrip h)

theorem pyStrip_eq_nil_of_all_underscore {l : List Char}
    (h : ∀ c ∈ l, c = '_') : pyStrip l = [] := by
  rw [pyStrip, dropWhile_eq_nil_of_all]
  · rfl
  · intro c hc
    rw [h c hc]
    rfl

theorem headOk_head {l : List Char} {c : Char} (hok : headOk l = true)
    (hh : l.head? = some c) : isSep c = false := by
  rw [headOk, hh] at hok
  simpa using hok

theorem mem_natDigitsAux {fuel n : Nat} {acc : List Char} {c : Char}
    (hacc : ∀ x ∈ acc, ∃ d, d < 10 ∧ x = decDigit d)
    (h : c ∈ natDigitsAux fuel n acc) : ∃ d, d < 10 ∧ c = decDigit d := by
  induction fuel generalizing n acc with
  | zero => exact hacc c h
  | succ fuel ih =>
    rw [natDigitsAux] at h
    by_cases hn : n < 10
    · rw [if_pos hn] at h
      rcases List.mem_cons.mp h with h1 | h1
      · exact ⟨n, hn, h1⟩
      · exact hacc c h1
    · rw [if_neg hn] at h
      refine ih ?_ h
      intro x hx
      rcases List.mem_cons.mp hx with h1 | h1
      · exact ⟨n % 10, Nat.mod_lt _ (by omega), h1⟩
      · exact hacc x h1

theorem mem_natDigits {n : Nat} {c : Char} (h : c ∈ natDigits n) :
    ∃ d, d < 10 ∧ c = decDigit d :=
  mem_natDigitsAux (by intro x hx; simp at hx) h

theorem natDigitsAux_ne_nil {fuel n : Nat} {acc : List Char} (hacc : acc ≠ []) :
    natDigitsAux fuel n acc ≠ [] := by
  induction fuel generalizing n acc with
  | zero => exact hacc
  | succ fuel ih =>
    rw [natDigitsAux]
    by_cases hn : n < 10
    · simp [hn]
    · rw [if_neg hn]
      exact ih (by simp)

theorem natDigits_ne_nil (n : Nat) : natDigits n ≠ [] := by
  rw [natDigits, natDigitsAux]
  by_cases hn : n < 10
  · simp [hn]
  · rw [if_neg hn]
    exact natDigitsAux_ne_nil (by simp)

theorem decDigit_not_sep {d : Nat} (hd : d < 10) : isSep (decDigit d) = false := by
  interval_cases d <;> rfl

theorem decDigit_safe {d : Nat} (hd : d < 10) :
    decDigit d ∉ reservedChars ∧ pyIsControl (decDigit d) = false := by
  interval_cases d <;> exact ⟨by decide, by decide⟩

theorem mem_sanitizeCore {w : Char → Bool} {t : List Char} {c : Char}
    (h : c ∈ sanitizeCore w t) : keepChar w c = true := by
  rw [sanitizeCore] at h
  have h1 := mem_pyStrip h
  rcases mem_subRunsAux h1 with ⟨h2, h3⟩ | h2
  · rcases mem_subRunsAux h2 with ⟨_, h4⟩ | h4
    · exact h4
    · rw [h4, keepChar, isSep]
      simp
  · rw [h2, keepChar, isSep]
    simp

theorem sanitizeCore_headOk (w : Char → Bool) (t : List Char) :
    headOk (sanitizeCore w t) = true :=
  pyStrip_headOk _

theorem sanitizeCore_lastOk (w : Char → Bool) (t : List Char) :
    lastOk (sanitizeCore w t) = true :=
  pyStrip_lastOk _

theorem fallbackName_headOk (now : Nat) : headOk (fallbackName now) = true := rfl

theorem mem_fallbackName {now : Nat} {c : Char} (h : c ∈ fallbackName now) :
    c ∈ ['f', 'i', 'l', 'e', '_'] ∨ ∃ d, d < 10 ∧ c = decDigit d := by
  rw [fallbackName] at h
  rcases List.mem_cons.mp h with h1 | h1
  · exact Or.inl (by simp [h1])
  rcases List.mem_cons.mp h1 with h2 | h2
  · exact Or.inl (by simp [h2])
  rcases List.mem_cons.mp h2 with h3 | h3
  · exact Or.inl (by simp [h3])
  rcases List.mem_cons.mp h3 with h4 | h4
  · exact Or.inl (by simp [h4])
  rcases List.mem_cons.mp h4 with h5 | h5
  · exact Or.inl (by simp [h5])
  · exact Or.inr (mem_natDigits h5)

theorem fallbackName_lastOk (now : Nat) : lastOk (fallbackName now) = true := by
  rw [fallbackName, lastOk]
  cases hd : natDigits now with
  | nil => exact absurd hd (natDigits_ne_nil now)
  | cons a t =>
    have hlast : ('f' :: 'i' :: 'l' :: 'e' :: '_' :: a :: t).getLast? = (a :: t).getLast? := by
      simp [List.getLast?_cons_cons]
    rw [hlast]
    cases hg : (a :: t).getLast? with
    | none => simp at hg
    | some x =>
      have hx : x ∈ a :: t := by
        have := List.getLast?_eq_getLast (a :: t) (by simp)
        rw [this] at hg
        exact (Option.some_inj.mp hg) ▸ List.getLast_mem (by simp)
      rw [← hd] at hx
      rcases mem_natDigits hx with ⟨d, hd10, hdc⟩
      rw [hdc]
      simp [decDigit_not_sep hd10]

theorem head?_take {l : List Char} {n : Nat} (hn : n ≠ 0) : (l.take n).head? = l.head? := by
  cases l with
  | nil => simp
  | cons a t =>
    cases n with
    | zero => exact absurd rfl hn
    | succ k => simp [List.take_succ_cons]

theorem finalStep_props {l : List Char} {m : Nat} (hm : 1 ≤ m) (hne : l ≠ [])
    (hh : headOk l = true) (hl : lastOk l = true) :
    (if m < l.length then pyRstrip (l.take m) else l) ≠ [] ∧
    (if m < l.length then pyRstrip (l.take m) else l).length ≤ m ∧
    headOk (if m < l.length then pyRstrip (l.take m) else l) = true ∧
    lastOk (if m < l.length then pyRstrip (l.take m) else l) = true ∧
    (if m < l.length then pyRstrip (l.take m) else l).head? = l.head? := by
  by_cases ht : m < l.length
  · rw [if_pos ht]
    cases hc : l.head? with
    | none => exact absurd (List.head?_eq_none_iff.mp hc) hne
    | some c =>
      have hcs : isSep c = false := headOk_head hh hc
      have htk : (l.take m).head? = some c := by rw [head?_take (by omega)]; exact hc
      have hnn : pyRstrip (l.take m) ≠ [] := pyRstrip_ne_nil htk hcs
      have hhd : (pyRstrip (l.take m)).head? = some c := by
        rcases pyRstrip_head? (l.take m) with h | h
        · exact absurd h hnn
        · rw [h, htk]
      refine ⟨hnn, ?_, ?_, pyRstrip_lastOk _, hhd⟩
      · exact le_trans (pyRstrip_length_le _) (by simp [List.length_take_le])
      · rw [headOk, hhd]
        simp [hcs]
  · rw [if_neg ht]
    exact ⟨hne, by omega, hh, hl, rfl⟩

theorem sanitize_data_eq (w : Char → Bool) (now : Nat) (title : String) (m : Nat) :
    (sanitize_title w now title m).data =
      (if m < (if sanitizeCore w title.data = [] then fallbackName now
               else sanitizeCore w title.data).length then
        pyRstrip ((if sanitizeCore w title.data = [] then fallbackName now
               else sanitizeCore w title.data).take m)
       else (if sanitizeCore w title.data = [] then fallbackName now
               else sanitizeCore w title.data)) := rfl

theorem safe_props (w : Char → Bool) (now : Nat) (title : String) :
    (if sanitizeCore w title.data = [] then fallbackName now
     else sanitizeCore w title.data) ≠ [] ∧
    headOk (if sanitizeCore w title.data = [] then fallbackName now
     else sanitizeCore w title.data) = true ∧
    lastOk (if sanitizeCore w title.data = [] then fallbackName now
     else sanitizeCore w title.data) = true := by
  by_cases hc : sanitizeCore w title.data = []
  · rw [if_pos hc]
    exact ⟨by simp [fallbackName], fallbackName_headOk now, fallbackName_lastOk now⟩
  · rw [if_neg hc]
    exact ⟨hc, sanitizeCore_headOk w _, sanitizeCore_lastOk w _⟩

theorem sanitize_shape (w : Char → Bool) (now : Nat) (title : String) (m : Nat)
    (hm : 1 ≤ m) :
    (sanitize_title w now title m).data ≠ [] ∧
    (sanitize_title w now title m).data.length ≤ m ∧
    headOk (sanitize_title w now title m).data = true ∧
    lastOk (sanitize_title w now title m).data = true := by
  obtain ⟨h1, h2, h3⟩ := safe_props w now title
  obtain ⟨g1, g2, g3, g4, _⟩ := finalStep_props hm h1 h2 h3
  rw [sanitize_data_eq]
  exact ⟨g1, g2, g3, g4⟩

theorem mem_sanitize {w : Char → Bool} {now : Nat} {title : String} {m : Nat} {c : Char}
    (h : c ∈ (sanitize_title w now title m).data) :
    keepChar w c = true ∨ c ∈ ['f', 'i', 'l', 'e'] ∨ ∃ d, d < 10 ∧ c = decDigit d := by
  rw [sanitize_data_eq] at h
  have hsafe : c ∈ (if sanitizeCore w title.data = [] then fallbackName now
      else sanitizeCore w title.data) := by
    by_cases ht : m < (if sanitizeCore w title.data = [] then fallbackName now
        else sanitizeCore w title.data).length
    · rw [if_pos ht] at h
      exact List.take_subset m _ (mem_pyRstrip h)
    · rwa [if_neg ht] at h
  by_cases hc : sanitizeCore w title.data = []
  · rw [if_pos hc] at hsafe
    rcases mem_fallbackName hsafe with h1 | h1
    · simp only [List.mem_cons, List.not_mem_nil, or_false] at h1
      rcases h1 with h2 | h2 | h2 | h2 | h2
      · exact Or.inr (Or.inl (by simp [h2]))
      · exact Or.inr (Or.inl (by simp [h2]))
      · exact Or.inr (Or.inl (by simp [h2]))
      · exact Or.inr (Or.inl (by simp [h2]))
      · left
        rw [h2, keepChar, isSep]
        simp
    · exact Or.inr (Or.inr h1)
  · rw [if_neg hc] at hsafe
    exact Or.inl (mem_sanitizeCore hsafe)

theorem sanitize_whitespace_fallback (w : Char → Bool) (now : Nat) (title : String)
    (m : Nat) (hm : 1 ≤ m)
    (hWs : ∀ c, c.isWhitespace = true → w c = false)
    (hall : ∀ c ∈ title.data, c.isWhitespace = true) :
    (sanitize_title w now title m).data.head? = some 'f' := by
  have hcore : sanitizeCore w title.data = [] := by
    rw [sanitizeCore]
    apply pyStrip_eq_nil_of_all_underscore
    apply subRunsAux_all_underscore
    intro c hc
    rcases mem_subRunsAux hc with ⟨h1, h2⟩ | h1
    · rcases List.mem_map.mp h1 with ⟨a, ha, hac⟩
      have hsp := hall a ha
      simp only [Char.isWhitespace, Bool.or_eq_true, decide_eq_true_eq] at hsp
      rcases hsp with ((h | h) | h) | h
      · exfalso
        have hc' : c = ' ' := by rw [← hac, h]; decide
        rw [hc', keepChar] at h2
        have hw : w ' ' = false := hWs ' ' (by decide)
        rw [hw] at h2
        simp [isSep] at h2
      · exact Or.inl (by rw [← hac, h]; decide)
      · exact Or.inl (by rw [← hac, h]; decide)
      · exact Or.inl (by rw [← hac, h]; decide)
    · exact Or.inl h1
  have hfb : (if sanitizeCore w title.data = [] then fallbackName now
      else sanitizeCore w title.data) = fallbackName now := if_pos hcore
  have hh : headOk (fallbackName now) = true := fallbackName_headOk now
  have hne : fallbackName now ≠ [] := by simp [fallbackName]
  have hl : lastOk (fallbackName now) = true := fallbackName_lastOk now
  obtain ⟨_, _, _, _, g5⟩ := @finalStep_props (fallbackName now) m hm hne hh hl
  rw [sanitize_data_eq, hfb]
  rw [g5]
  rfl

/-! ## Disk reconciliation lemmas -/

theorem endsWithList_trans {p q l : List Char} (hp : endsWithList p l = true)
    (hq : endsWithList q l = true) (hpq : p.length ≤ q.length) :
    endsWithList p q = true := by
  rw [endsWithList, beq_iff_eq] at hp hq ⊢
  have hql : q.length ≤ l.length := by
    rw [← hq]
    simp [List.length_drop]
  rw [← hq, List.drop_drop, ← hp]
  congr 1
  rw [← hq]
  simp [List.length_drop]
  omega

theorem endsWithList_append (p q : List Char) : endsWithList q (p ++ q) = true := by
  rw [endsWithList, beq_iff_eq]
  have : (p ++ q).length - q.length = p.length := by simp
  rw [this, List.drop_left]

theorem lockName_data (key : String) :
    (lockName key).data = '.' :: (key.data ++ ['.', 'l', 'o', 'c', 'k']) := by
  rw [lockName]
  simp [String.data_append]

theorem lockName_hidden (key : String) : isHidden (lockName key) = true := by
  rw [isHidden, lockName_data]
  simp

theorem lockName_not_ext_suffix {key e : String} (he : e.length ≤ 4)
    (hne : endsWithList ('.' :: e.data) ['.', 'l', 'o', 'c', 'k'] = false) :
    endsWithList ("." ++ e).data (lockName key).data = false := by
  by_contra hcon
  simp only [Bool.not_eq_false] at hcon
  have hdot : ("." ++ e).data = '.' :: e.data := by
    simp [String.data_append]
  rw [hdot] at hcon
  have hlock : endsWithList ['.', 'l', 'o', 'c', 'k'] (lockName key).data = true := by
    rw [lockName_data]
    have : '.' :: (key.data ++ ['.', 'l', 'o', 'c', 'k']) =
        ('.' :: key.data) ++ ['.', 'l', 'o', 'c', 'k'] := by simp
    rw [this]
    exact endsWithList_append _ _
  have := endsWithList_trans hcon hlock (by simp; omega)
  rw [this] at hne
  cases hne

theorem ext_len_le {ft e : String} (he : e ∈ extensionsFor ft) : e.length ≤ 4 := by
  rw [extensionsFor] at he
  by_cases hft : ft = "audio" <;> simp [hft] at he <;>
    rcases he with h | h | h | h | h <;> subst h <;> decide

theorem ext_not_lock_suffix {ft e : String} (he : e ∈ extensionsFor ft) :
    endsWithList ('.' :: e.data) ['.', 'l', 'o', 'c', 'k'] = false := by
  rw [extensionsFor] at he
  by_cases hft : ft = "audio" <;> simp [hft] at he <;>
    rcases he with h | h | h | h | h <;> subst h <;> decide

theorem scanDisk_mem {files : List String} {vid n : String} {exts : List String}
    (h : scanDisk files vid exts = some n) : n ∈ files := by
  induction exts with
  | nil => simp [scanDisk] at h
  | cons e rest ih =>
    rw [scanDisk] at h
    cases hs : files.find? (fun m => suffixPat vid e m) with
    | some m =>
      rw [hs] at h
      cases h
      exact List.mem_of_find?_eq_some hs
    | none =>
      rw [hs] at h
      cases hp : files.find? (fun m => prefixPat vid e m) with
      | some m =>
        rw [hp] at h
        cases h
        exact List.mem_of_find?_eq_some hp
      | none =>
        rw [hp] at h
        exact ih h

theorem scanDisk_pat {files : List String} {vid n : String} {exts : List String}
    (h : scanDisk files vid exts = some n) :
    ∃ e ∈ exts, suffixPat vid e n = true ∨ prefixPat vid e n = true := by
  induction exts with
  | nil => simp [scanDisk] at h
  | cons e rest ih =>
    rw [scanDisk] at h
    cases hs : files.find? (fun m => suffixPat vid e m) with
    | some m =>
      rw [hs] at h
      cases h
      exact ⟨e, by simp, Or.inl (by simpa using List.find?_some hs)⟩
    | none =>
      rw [hs] at h
      cases hp : files.find? (fun m => prefixPat vid e m) with
      | some m =>
        rw [hp] at h
        cases h
        exact ⟨e, by simp, Or.inr (by simpa using List.find?_some hp)⟩
      | none =>
        rw [hp] at h
        rcases ih h with ⟨x, hx, hpat⟩
        exact ⟨x, List.mem_cons_of_mem _ hx, hpat⟩

theorem scanDisk_ne_lock {files : List String} {vid ft n key : String}
    (h : scanDisk files vid (extensionsFor ft) = some n) : n ≠ lockName key := by
  intro hcon
  subst hcon
  rcases scanDisk_pat h with ⟨e, he, hpat | hpat⟩
  · rw [suffixPat, lockName_hidden] at hpat
    simp at hpat
  · rw [prefixPat] at hpat
    simp only [Bool.and_eq_true] at hpat
    have hext := hpat.1.2
    rw [lockName_not_ext_suffix (ext_len_le he) (ext_not_lock_suffix he)] at hext
    cases hext

theorem find_existing_mem {s : Sys} {vid ft f : String}
    (h : find_existing_file s vid ft = some f) : f ∈ s.files := by
  rw [find_existing_file] at h
  cases hc : cacheGet s.cache (mkKey vid ft) with
  | some g =>
    rw [hc] at h
    dsimp only at h
    by_cases hg : g ∈ s.files
    · rw [if_pos hg] at h
      cases h
      exact hg
    · rw [if_neg hg] at h
      exact scanDisk_mem h
  | none =>
    rw [hc] at h
    dsimp only at h
    exact scanDisk_mem h

theorem find_existing_cache_hit {s : Sys} {vid ft f : String}
    (hc : cacheGet s.cache (mkKey vid ft) = some f) (hf : f ∈ s.files) :
    find_existing_file s vid ft = some f := by
  rw [find_existing_file, hc]
  dsimp only
  rw [if_pos hf]

theorem find_existing_dangling {s : Sys} {vid ft f : String}
    (hc : cacheGet s.cache (mkKey vid ft) = some f) (hf : f ∉ s.files) :
    find_existing_file s vid ft = scanDisk s.files vid (extensionsFor ft) := by
  rw [find_existing_file, hc]
  dsimp only
  rw [if_neg hf]

theorem find_existing_no_cache {s : Sys} {vid ft : String}
    (hc : cacheGet s.cache (mkKey vid ft) = none) :
    find_existing_file s vid ft = scanDisk s.files vid (extensionsFor ft) := by
  rw [find_existing_file, hc]

theorem find_existing_ne_lock {s : Sys} {vid ft f key : String}
    (h : find_existing_file s vid ft = some f)
    (hck : cacheGet s.cache (mkKey vid ft) ≠ some (lockName key)) :
    f ≠ lockName key := by
  rw [find_existing_file] at h
  cases hc : cacheGet s.cache (mkKey vid ft) with
  | some g =>
    rw [hc] at h
    dsimp only at h
    by_cases hg : g ∈ s.files
    · rw [if_pos hg] at h
      cases h
      intro hcon
      exact hck (hcon ▸ hc)
    · rw [if_neg hg] at h
      exact scanDisk_ne_lock h
  | none =>
    rw [hc] at h
    dsimp only at h
    exact scanDisk_ne_lock h

theorem scanDisk_eq_firstMatch (files : List String) (vid : String) (exts : List String) :
    scanDisk files vid exts = firstMatch files (patList vid exts) := by
  induction exts with
  | nil => rfl
  | cons e rest ih =>
    rw [scanDisk, patList, firstMatch]
    cases hs : files.find? (fun n => suffixPat vid e n) with
    | some n => rfl
    | none =>
      dsimp only
      rw [firstMatch]
      cases hp : files.find? (fun n => prefixPat vid e n) with
      | some n => rfl
      | none =>
        dsimp only
        exact ih

theorem firstMatch_mem {files : List String} {ps : List (String → Bool)} {n : String}
    (h : firstMatch files ps = some n) : n ∈ files := by
  induction ps with
  | nil => simp [firstMatch] at h
  | cons p rest ih =>
    rw [firstMatch] at h
    cases hs : files.find? p with
    | some x =>
      rw [hs] at h
      cases h
      exact List.mem_of_find?_eq_some hs
    | none =>
      rw [hs] at h
      dsimp only at h
      exact ih h

theorem firstMatch_rank {files : List String} {ps : List (String → Bool)} {n : String}
    (h : firstMatch files ps = some n) :
    ps.findIdx (fun p => p n) < ps.length ∧
    ∀ m ∈ files, ps.findIdx (fun p => p n) ≤ ps.findIdx (fun p => p m) := by
  induction ps with
  | nil => simp [firstMatch] at h
  | cons p rest ih =>
    rw [firstMatch] at h
    cases hs : files.find? p with
    | some x =>
      rw [hs] at h
      cases h
      have hp : p n = true := List.find?_some hs
      constructor
      · rw [List.findIdx_cons]
        simp [hp]
      · intro m hm
        rw [List.findIdx_cons]
        simp [hp]
    | none =>
      rw [hs] at h
      dsimp only at h
      have hall : ∀ m ∈ files, p m = false := by
        intro m hm
        have := List.find?_eq_none.mp hs m hm
        simpa using this
      have hn : n ∈ files := firstMatch_mem h
      rcases ih h with ⟨h1, h2⟩
      constructor
      · rw [List.findIdx_cons]
        simp only [hall n hn, cond_false]
        simpa using Nat.succ_lt_succ h1
      · intro m hm
        rw [List.findIdx_cons, List.findIdx_cons]
        simp only [hall n hn, hall m hm, cond_false]
        exact Nat.succ_le_succ (h2 m hm)

/-! ## Cache, lock and filesystem lemmas -/

theorem cacheGet_cachePut (k f : String) (s : Sys) :
    cacheGet (cachePut k f s).cache k = some f := by
  rw [cachePut]
  rw [cacheGet]
  rw [List.find?_cons_of_pos _ (by simp)]
  rfl

theorem cachePut_files (k f : String) (s : Sys) : (cachePut k f s).files = s.files := rfl

theorem create_lock_busy {key : String} {s : Sys} (h : lockName key ∈ s.files) :
    create_lock key s = (none, s) := by
  rw [create_lock]
  simp [h]

theorem create_lock_free {key : String} {s : Sys} (h : lockName key ∉ s.files) :
    create_lock key s = (some (lockName key), { s with files := lockName key :: s.files }) := by
  rw [create_lock]
  simp [h]

theorem remove_lock_files (lf : String) (s : Sys) :
    (remove_lock lf s).files = s.files.erase lf := rfl

theorem remove_lock_cache (lf : String) (s : Sys) :
    (remove_lock lf s).cache = s.cache := rfl

theorem count_fsAdd_le {x n : String} {l : List String} (h : l.count x ≤ 1) :
    (fsAdd l n).count x ≤ 1 := by
  rw [fsAdd]
  by_cases hn : n ∈ l
  · simp [hn, h]
  · rw [if_neg hn]
    by_cases hx : n = x
    · subst hx
      rw [List.count_cons_self]
      have h0 : l.count n = 0 := List.count_eq_zero.mpr hn
      omega
    · rw [List.count_cons_of_ne (Ne.symm hx)]
      exact h

theorem count_fsAddList_le {x : String} {new l : List String} (h : l.count x ≤ 1) :
    (fsAddList new l).count x ≤ 1 := by
  induction new generalizing l with
  | nil => exact h
  | cons n rest ih =>
    rw [fsAddList, List.foldl_cons]
    exact ih (count_fsAdd_le h)

theorem mem_fsAdd_of_mem {x n : String} {l : List String} (h : x ∈ l) : x ∈ fsAdd l n := by
  rw [fsAdd]
  split
  · exact h
  · exact List.mem_cons_of_mem _ h

theorem mem_fsAddList_of_mem {x : String} {new l : List String} (h : x ∈ l) :
    x ∈ fsAddList new l := by
  induction new generalizing l with
  | nil => exact h
  | cons n rest ih =>
    rw [fsAddList, List.foldl_cons]
    exact ih (mem_fsAdd_of_mem h)

theorem not_mem_erase_self_of_count_le_one {x : String} {l : List String}
    (h : l.count x ≤ 1) : x ∉ l.erase x := by
  intro hc
  have h1 := List.count_erase_self x l
  have h2 : 0 < (l.erase x).count x := List.count_pos_iff.mpr hc
  omega

/-! ## Orchestrator lemmas -/

theorem respFile_successResp (d : Deliver) (ft f : String) (c : Bool) :
    respFile (successResp d ft f c) = some f := by
  cases d <;> rfl

theorem iterFrom_succ (step : Nat → Sys → Sys) (i : Nat) (s : Sys) (n : Nat) :
    iterFrom step i s (n + 1) = iterFrom step (i + 1) (step i s) n := rfl

theorem waitLoop_timeout {step : Nat → Sys → Sys} {d : Deliver} {vid ft ck : String} :
    ∀ (fuel i : Nat) (s : Sys),
    (∀ k, k < fuel → find_existing_file (iterFrom step i s (k + 1)) vid ft = none) →
    waitLoop step d vid ft ck fuel i s =
      (.err 500 "Timeout waiting for concurrent download", iterFrom step i s fuel,
        List.replicate fuel .poll) := by
  intro fuel
  induction fuel with
  | zero => intro i s h; rfl
  | succ fuel ih =>
    intro i s h
    rw [waitLoop]
    have h0 : find_existing_file (step i s) vid ft = none := h 0 (by omega)
    rw [h0]
    dsimp only
    rw [ih (i + 1) (step i s) (fun k hk => h (k + 1) (by omega))]
    simp [iterFrom_succ, List.replicate_succ]

theorem waitLoop_hit {step : Nat → Sys → Sys} {d : Deliver} {vid ft ck f : String} :
    ∀ (fuel k i : Nat) (s : Sys), k < fuel →
    find_existing_file (iterFrom step i s (k + 1)) vid ft = some f →
    (∀ j, j < k → find_existing_file (iterFrom step i s (j + 1)) vid ft = none) →
    waitLoop step d vid ft ck fuel i s =
      (successResp d ft f true, cachePut ck f (iterFrom step i s (k + 1)),
        List.replicate (k + 1) .poll) := by
  intro fuel
  induction fuel with
  | zero => intro k i s hk; omega
  | succ fuel ih =>
    intro k i s hk hfind hbefore
    rw [waitLoop]
    cases k with
    | zero =>
      rw [show iterFrom step i s 1 = step i s from rfl] at hfind
      rw [hfind]
      rfl
    | succ k =>
      have h0 : find_existing_file (step i s) vid ft = none := hbefore 0 (by omega)
      rw [h0]
      dsimp only
      rw [ih k (i + 1) (step i s) (by omega) hfind (fun j hj => hbefore (j + 1) (by omega))]
      simp only [List.replicate_succ]
      rfl

theorem waitLoop_post {step : Nat → Sys → Sys} {d : Deliver} {vid ft ck : String} :
    ∀ (fuel i : Nat) (s : Sys) (f : String),
    respFile (waitLoop step d vid ft ck fuel i s).1 = some f →
    cacheGet (waitLoop step d vid ft ck fuel i s).2.1.cache ck = some f ∧
      f ∈ (waitLoop step d vid ft ck fuel i s).2.1.files := by
  intro fuel
  induction fuel with
  | zero => intro i s f hf; simp [waitLoop, respFile] at hf
  | succ fuel ih =>
    intro i s f hf
    rw [waitLoop] at hf ⊢
    cases hfind : find_existing_file (step i s) vid ft with
    | some g =>
      rw [hfind] at hf
      dsimp only at hf
      rw [respFile_successResp] at hf
      cases hf
      exact ⟨cacheGet_cachePut _ _ _, by rw [cachePut_files]; exact find_existing_mem hfind⟩
    | none =>
      rw [hfind] at hf
      dsimp only at hf
      exact ih (i + 1) (step i s) f hf

theorem waitLoop_trace_poll {step : Nat → Sys → Sys} {d : Deliver} {vid ft ck : String} :
    ∀ (fuel i : Nat) (s : Sys) (e : Ev),
    e ∈ (waitLoop step d vid ft ck fuel i s).2.2 → e = Ev.poll := by
  intro fuel
  induction fuel with
  | zero => intro i s e he; simp [waitLoop] at he
  | succ fuel ih =>
    intro i s e he
    rw [waitLoop] at he
    cases hfind : find_existing_file (step i s) vid ft with
    | some g =>
      rw [hfind] at he
      dsimp only at he
      simpa using he
    | none =>
      rw [hfind] at he
      dsimp only at he
      rcases List.mem_cons.mp he with h | h
      · exact h
      · exact ih (i + 1) (step i s) e h

theorem waitLoop_trace_len {step : Nat → Sys → Sys} {d : Deliver} {vid ft ck : String} :
    ∀ (fuel i : Nat) (s : Sys),
    (waitLoop step d vid ft ck fuel i s).2.2.length ≤ fuel := by
  intro fuel
  induction fuel with
  | zero => intro i s; simp [waitLoop]
  | succ fuel ih =>
    intro i s
    rw [waitLoop]
    cases hfind : find_existing_file (step i s) vid ft with
    | some g => simp
    | none =>
      dsimp only
      simpa using Nat.succ_le_succ (ih (i + 1) (step i s))

theorem waitLoop_resp {step : Nat → Sys → Sys} {d : Deliver} {vid ft ck : String} :
    ∀ (fuel i : Nat) (s : Sys),
    (∃ f, (waitLoop step d vid ft ck fuel i s).1 = successResp d ft f true) ∨
    (waitLoop step d vid ft ck fuel i s).1 = .err 500 "Timeout waiting for concurrent download" := by
  intro fuel
  induction fuel with
  | zero => intro i s; exact Or.inr rfl
  | succ fuel ih =>
    intro i s
    rw [waitLoop]
    cases hfind : find_existing_file (step i s) vid ft with
    | some g => exact Or.inl ⟨g, rfl⟩
    | none =>
      dsimp only
      exact ih (i + 1) (step i s)

theorem sanitize_append_ne_lock {w : Char → Bool} {now : Nat} {title ext key : String} :
    sanitize_title w now title 120 ++ "." ++ ext ≠ lockName key := by
  intro hcon
  obtain ⟨hne, _, hok, _⟩ := sanitize_shape w now title 120 (by omega)
  cases hc : (sanitize_title w now title 120).data with
  | nil => exact hne hc
  | cons c t =>
    have hcs : isSep c = false := headOk_head hok (by rw [hc]; rfl)
    have hdata : (sanitize_title w now title 120 ++ "." ++ ext).data.head? = some c := by
      rw [String.data_append, String.data_append, hc]
      rfl
    rw [hcon, lockName_data] at hdata
    simp only [List.head?_cons, Option.some_inj] at hdata
    rw [← hdata] at hcs
    simp [isSep] at hcs

theorem renameStep_skip {renameOk : Bool} {df clean : String} {s1 : Sys}
    (h : ¬(df ≠ clean ∧ clean ∉ s1.files)) :
    renameStep renameOk df clean s1 = (df, s1) := by
  rw [renameStep, if_neg h]

theorem renameStep_fail {df clean : String} {s1 : Sys}
    (h : df ≠ clean ∧ clean ∉ s1.files) :
    renameStep false df clean s1 = (df, s1) := by
  rw [renameStep, if_pos h]
  rfl

theorem renameStep_do {df clean : String} {s1 : Sys}
    (h : df ≠ clean ∧ clean ∉ s1.files) :
    renameStep true df clean s1 = (clean, fsRename df clean s1) := by
  rw [renameStep, if_pos h]
  rfl

theorem renameStep_spec (renameOk : Bool) (df clean : String) (s1 : Sys) :
    renameStep renameOk df clean s1 = (df, s1) ∨
    renameStep renameOk df clean s1 = (clean, fsRename df clean s1) := by
  rw [renameStep]
  by_cases h : df ≠ clean ∧ clean ∉ s1.files
  · rw [if_pos h]
    cases renameOk
    · exact Or.inl rfl
    · exact Or.inr rfl
  · rw [if_neg h]
    exact Or.inl rfl

theorem downloadSuccess_lock_removed {d : Deliver} {renameOk : Bool}
    {vid ft ck : String} {newFiles : List String} {s : Sys}
    {w : Char → Bool} {now : Nat} {title ext : String}
    (hcnt : s.files.count (lockName ck) ≤ 1) :
    lockName ck ∉
      (downloadSuccess d renameOk (sanitize_title w now title 120 ++ "." ++ ext)
        vid ft ck (lockName ck) newFiles s).2.1.files := by
  rw [downloadSuccess]
  have hcnt1 : (fsAddList newFiles s.files).count (lockName ck) ≤ 1 :=
    count_fsAddList_le hcnt
  rcases hfind : find_existing_file ⟨fsAddList newFiles s.files, s.cache⟩ vid ft with _ | df
  · dsimp only
    rw [remove_lock_files]
    exact not_mem_erase_self_of_count_le_one hcnt1
  · dsimp only
    rcases renameStep_spec renameOk df
        (sanitize_title w now title 120 ++ "." ++ ext) ⟨fsAddList newFiles s.files, s.cache⟩
        with hrs | hrs <;> rw [hrs] <;> dsimp only <;>
      rw [remove_lock_files, cachePut_files]
    · exact not_mem_erase_self_of_count_le_one hcnt1
    · apply not_mem_erase_self_of_count_le_one
      rw [fsRename]
      dsimp only
      rw [List.count_cons_of_ne (Ne.symm sanitize_append_ne_lock)]
      exact le_trans (List.Sublist.count_le (List.erase_sublist _ _) _) hcnt1

theorem tryDownload_lock_removed {d : Deliver} {outcome : DlOutcome} {renameOk : Bool}
    {w : Char → Bool} {now : Nat} {vid title ft ck : String} {s : Sys}
    (hcnt : s.files.count (lockName ck) ≤ 1) :
    lockName ck ∉
      (tryDownload d outcome renameOk w now vid title ft ck (lockName ck) s).2.1.files := by
  rw [tryDownload.eq_def]
  cases outcome with
  | other msg =>
    dsimp only
    rw [remove_lock_files]
    exact not_mem_erase_self_of_count_le_one hcnt
  | procError msg =>
    dsimp only
    rw [remove_lock_files]
    exact not_mem_erase_self_of_count_le_one hcnt
  | timedOut =>
    dsimp only
    rw [remove_lock_files]
    exact not_mem_erase_self_of_count_le_one hcnt
  | success newFiles =>
    exact downloadSuccess_lock_removed hcnt

theorem downloadSuccess_post {d : Deliver} {renameOk : Bool} {vid ft ck : String}
    {newFiles : List String} {s : Sys} {w : Char → Bool} {now : Nat} {title ext f : String}
    (hcache : cacheGet s.cache (mkKey vid ft) ≠ some (lockName ck))
    (hf : respFile (downloadSuccess d renameOk
      (sanitize_title w now title 120 ++ "." ++ ext) vid ft ck (lockName ck) newFiles s).1 =
        some f) :
    cacheGet (downloadSuccess d renameOk (sanitize_title w now title 120 ++ "." ++ ext)
        vid ft ck (lockName ck) newFiles s).2.1.cache ck = some f ∧
      f ∈ (downloadSuccess d renameOk (sanitize_title w now title 120 ++ "." ++ ext)
        vid ft ck (lockName ck) newFiles s).2.1.files := by
  rw [downloadSuccess] at hf ⊢
  rcases hfind : find_existing_file ⟨fsAddList newFiles s.files, s.cache⟩ vid ft with _ | df
  · rw [hfind] at hf
    dsimp only at hf
    simp [respFile] at hf
  · rw [hfind] at hf
    dsimp only at hf ⊢
    rw [respFile_successResp] at hf
    have hff : f = (renameStep renameOk df (sanitize_title w now title 120 ++ "." ++ ext)
        ⟨fsAddList newFiles s.files, s.cache⟩).1 := (Option.some_inj.mp hf).symm
    have hdf : df ∈ (⟨fsAddList newFiles s.files, s.cache⟩ : Sys).files :=
      find_existing_mem hfind
    have hdfl : df ≠ lockName ck := find_existing_ne_lock hfind hcache
    rcases renameStep_spec renameOk df (sanitize_title w now title 120 ++ "." ++ ext)
        ⟨fsAddList newFiles s.files, s.cache⟩ with hrs | hrs <;>
      rw [hrs] at hff ⊢ <;> dsimp only at hff <;> subst hff
    · refine ⟨?_, ?_⟩
      · rw [remove_lock_cache]
        exact cacheGet_cachePut _ _ _
      · rw [remove_lock_files, cachePut_files]
        exact (List.mem_erase_of_ne hdfl).mpr hdf
    · refine ⟨?_, ?_⟩
      · rw [remove_lock_cache]
        exact cacheGet_cachePut _ _ _
      · rw [remove_lock_files, cachePut_files]
        refine (List.mem_erase_of_ne sanitize_append_ne_lock).mpr ?_
        rw [fsRename]
        exact List.mem_cons_self _ _

theorem tryDownload_post {d : Deliver} {outcome : DlOutcome} {renameOk : Bool}
    {w : Char → Bool} {now : Nat} {vid title ft ck f : String} {s : Sys}
    (hcache : cacheGet s.cache (mkKey vid ft) ≠ some (lockName ck))
    (hf : respFile (tryDownload d outcome renameOk w now vid title ft ck (lockName ck) s).1 =
      some f) :
    cacheGet (tryDownload d outcome renameOk w now vid title ft ck
        (lockName ck) s).2.1.cache ck = some f ∧
      f ∈ (tryDownload d outcome renameOk w now vid title ft ck (lockName ck) s).2.1.files := by
  rw [tryDownload.eq_def] at hf ⊢
  cases outcome with
  | other msg => simp [respFile] at hf
  | procError msg => simp [respFile] at hf
  | timedOut => simp [respFile] at hf
  | success newFiles => exact downloadSuccess_post hcache hf

theorem downloadSuccess_trace (d : Deliver) (renameOk : Bool)
    (clean vid ft ck lock : String) (newFiles : List String) (s : Sys) :
    (downloadSuccess d renameOk clean vid ft ck lock newFiles s).2.2 = [Ev.invoke] := by
  rw [downloadSuccess]
  rcases hfind : find_existing_file ⟨fsAddList newFiles s.files, s.cache⟩ vid ft with _ | df
  · rfl
  · rfl

theorem tryDownload_trace (d : Deliver) (outcome : DlOutcome) (renameOk : Bool)
    (w : Char → Bool) (now : Nat) (vid title ft ck lock : String) (s : Sys) :
    (tryDownload d outcome renameOk w now vid title ft ck lock s).2.2 = [] ∨
    (tryDownload d outcome renameOk w now vid title ft ck lock s).2.2 = [Ev.invoke] := by
  rw [tryDownload.eq_def]
  cases outcome with
  | success newFiles => exact Or.inr (downloadSuccess_trace _ _ _ _ _ _ _ _ _)
  | procError msg => exact Or.inr rfl
  | timedOut => exact Or.inr rfl
  | other msg => exact Or.inl rfl

theorem handleCore_early {d : Deliver} {env : DlEnv} {vid title ft ck f : String} {s : Sys}
    (hfind : find_existing_file s vid ft = some f) :
    handleCore d env vid title ft ck s = (successResp d ft f true, cachePut ck f s, []) := by
  rw [handleCore.eq_def, hfind]

theorem handleCore_busy {d : Deliver} {env : DlEnv} {vid title ft ck : String} {s : Sys}
    (hfind : find_existing_file s vid ft = none) (hlock : lockName ck ∈ s.files) :
    handleCore d env vid title ft ck s =
      ((waitLoop env.step d vid ft ck 180 0 s).1,
       (waitLoop env.step d vid ft ck 180 0 s).2.1,
       .acquireFail :: (waitLoop env.step d vid ft ck 180 0 s).2.2) := by
  rw [handleCore.eq_def, hfind]
  dsimp only
  rw [create_lock_busy hlock]

theorem handleCore_acquired {d : Deliver} {env : DlEnv} {vid title ft ck : String} {s : Sys}
    (hfind : find_existing_file s vid ft = none) (hlock : lockName ck ∉ s.files) :
    handleCore d env vid title ft ck s =
      ((tryDownload d env.outcome env.renameOk env.wordChar env.now vid title ft ck
          (lockName ck) ⟨lockName ck :: s.files, s.cache⟩).1,
       (tryDownload d env.outcome env.renameOk env.wordChar env.now vid title ft ck
          (lockName ck) ⟨lockName ck :: s.files, s.cache⟩).2.1,
       .acquireOk :: (tryDownload d env.outcome env.renameOk env.wordChar env.now vid title ft ck
          (lockName ck) ⟨lockName ck :: s.files, s.cache⟩).2.2) := by
  rw [handleCore.eq_def, hfind]
  dsimp only
  rw [create_lock_free hlock]

theorem handleCore_post {d : Deliver} {env : DlEnv} {vid title ft f : String} {s : Sys}
    (hcache : cacheGet s.cache (mkKey vid ft) ≠ some (lockName (mkKey vid ft)))
    (hf : respFile (handleCore d env vid title ft (mkKey vid ft) s).1 = some f) :
    cacheGet (handleCore d env vid title ft (mkKey vid ft) s).2.1.cache (mkKey vid ft) =
        some f ∧
      f ∈ (handleCore d env vid title ft (mkKey vid ft) s).2.1.files := by
  rcases hfind : find_existing_file s vid ft with _ | g
  · by_cases hlock : lockName (mkKey vid ft) ∈ s.files
    · rw [handleCore_busy hfind hlock] at hf ⊢
      exact waitLoop_post 180 0 s f hf
    · rw [handleCore_acquired hfind hlock] at hf ⊢
      exact tryDownload_post hcache hf
  · rw [handleCore_early hfind] at hf ⊢
    dsimp only at hf ⊢
    rw [respFile_successResp] at hf
    cases hf
    exact ⟨cacheGet_cachePut _ _ _, by rw [cachePut_files]; exact find_existing_mem hfind⟩

theorem handleCore_lock_released {d : Deliver} {env : DlEnv} {vid title ft : String} {s : Sys}
    (hfind : find_existing_file s vid ft = none)
    (hlock : lockName (mkKey vid ft) ∉ s.files) :
    lockName (mkKey vid ft) ∉
      (handleCore d env vid title ft (mkKey vid ft) s).2.1.files := by
  rw [handleCore_acquired hfind hlock]
  dsimp only
  apply tryDownload_lock_removed
  dsimp only
  rw [List.count_cons_self, List.count_eq_zero.mpr hlock]

theorem handleCore_invoke_le_one (d : Deliver) (env : DlEnv) (vid title ft ck : String)
    (s : Sys) :
    (handleCore d env vid title ft ck s).2.2.count Ev.invoke ≤ 1 := by
  rcases hfind : find_existing_file s vid ft with _ | g
  · by_cases hlock : lockName ck ∈ s.files
    · rw [handleCore_busy hfind hlock]
      dsimp only
      rw [List.count_cons_of_ne (by decide)]
      have hmem : Ev.invoke ∉ (waitLoop env.step d vid ft ck 180 0 s).2.2 := by
        intro hmem
        exact absurd (waitLoop_trace_poll 180 0 s Ev.invoke hmem) (by decide)
      rw [List.count_eq_zero.mpr hmem]
      omega
    · rw [handleCore_acquired hfind hlock]
      dsimp only
      rcases tryDownload_trace d env.outcome env.renameOk env.wordChar env.now vid title ft ck
          (lockName ck) ⟨lockName ck :: s.files, s.cache⟩ with ht | ht <;> rw [ht] <;> decide
  · rw [handleCore_early hfind]
    simp

/-! ## Remaining helper lemmas -/

theorem download_media_eq (env : DlEnv) (vid title u t : String) (s : Sys) :
    download_media env vid title ⟨u, t⟩ s =
      handleCore .json env vid title (effectiveType t) (mkKey vid (effectiveType t)) s := rfl

theorem get_media_eq (env : DlEnv) (vid title u t : String) (s : Sys) :
    get_media env vid title ⟨u, t⟩ s =
      handleCore .raw env vid title (effectiveType t) (mkKey vid (effectiveType t)) s := rfl

theorem iterFrom_const (s : Sys) : ∀ (n i : Nat), iterFrom (fun _ s => s) i s n = s := by
  intro n
  induction n with
  | zero => intro i; rfl
  | succ n ih => intro i; rw [iterFrom_succ]; exact ih (i + 1)

theorem isSep_not_reserved {c : Char} (h : isSep c = true) : c ∉ reservedChars := by
  rw [isSep] at h
  simp only [Bool.or_eq_true, decide_eq_true_eq] at h
  rcases h with (h | h) | h <;> subst h <;> decide

theorem isSep_not_control {c : Char} (h : isSep c = true) : pyIsControl c = false := by
  rw [isSep] at h
  simp only [Bool.or_eq_true, decide_eq_true_eq] at h
  rcases h with (h | h) | h <;> subst h <;> decide

/-! ## Claim theorems and witnesses -/

/-- C2 counterexample: with the audio files `dQw4w9WgXcQ.mp3` (matching only
the prefix glob, under extension mp3) and `tune__dQw4w9WgXcQ.m4a` (matching
the suffix glob, under extension m4a) on disk and an empty cache,
`find_existing_file` returns the prefix-pattern match, even though a
suffix-pattern match exists under a later extension.  Hence the claim that
every suffix-pattern match takes precedence over every prefix-pattern match
is false: the code interleaves the two patterns per extension. -/
theorem C2_counterexample :
    find_existing_file ⟨["dQw4w9WgXcQ.mp3", "tune__dQw4w9WgXcQ.m4a"], []⟩
        "dQw4w9WgXcQ" "audio" = some "dQw4w9WgXcQ.mp3" ∧
    suffixPat "dQw4w9WgXcQ" "m4a" "tune__dQw4w9WgXcQ.m4a" = true ∧
    (extensionsFor "audio").all
      (fun e => !suffixPat "dQw4w9WgXcQ" e "dQw4w9WgXcQ.mp3") = true := by
  decide

/-- C2 (amended): for each extension in the fixed preference order the
suffix pattern `*__<id>.<ext>` is searched, then the prefix pattern
`<id>*.<ext>` for that same extension, before moving to the next extension
(the interleaved order `patList`); when the cache yields no
on-disk-confirmed entry, the file returned by `find_existing_file` attains
the minimal rank in that interleaved pattern order among all files in the
directory. -/
theorem C2_amended_interleaved_first_pattern_wins (s : Sys) (vid ft n : String)
    (hcache : ∀ g, cacheGet s.cache (mkKey vid ft) = some g → g ∉ s.files)
    (hfound : find_existing_file s vid ft = some n) :
    patRank vid ft n < (patList vid (extensionsFor ft)).length ∧
    ∀ m ∈ s.files, patRank vid ft n ≤ patRank vid ft m := by
  have hscan : scanDisk s.files vid (extensionsFor ft) = some n := by
    rcases hcg : cacheGet s.cache (mkKey vid ft) with _ | g
    · rw [find_existing_no_cache hcg] at hfound
      exact hfound
    · rw [find_existing_dangling hcg (hcache g hcg)] at hfound
      exact hfound
  rw [scanDisk_eq_firstMatch] at hscan
  exact firstMatch_rank hscan

/-- C2 witness: in the counterexample state, the returned mp3 prefix match
has rank no greater than the on-disk m4a suffix match. -/
theorem C2_amended_witness :
    patRank "dQw4w9WgXcQ" "audio" "dQw4w9WgXcQ.mp3" <
        (patList "dQw4w9WgXcQ" (extensionsFor "audio")).length ∧
    patRank "dQw4w9WgXcQ" "audio" "dQw4w9WgXcQ.mp3" ≤
      patRank "dQw4w9WgXcQ" "audio" "tune__dQw4w9WgXcQ.m4a" := by
  have h := C2_amended_interleaved_first_pattern_wins
    ⟨["dQw4w9WgXcQ.mp3", "tune__dQw4w9WgXcQ.m4a"], []⟩ "dQw4w9WgXcQ" "audio" "dQw4w9WgXcQ.mp3"
    (by intro g hg; simp [cacheGet] at hg) (by decide)
  exact ⟨h.1, h.2 "tune__dQw4w9WgXcQ.m4a" (by decide)⟩

/-- C3: with a cache entry recorded for the key, `find_existing_file`
returns the recorded filename exactly when it is present in the download
directory: presence makes it win over any disk-scan match, while a missing
recorded file makes the lookup fall through to the disk scan, whose result
is always a file present on disk and never the dangling recorded name. -/
theorem C3_cache_confirmed_wins (s : Sys) (vid ft f : String)
    (hcache : cacheGet s.cache (mkKey vid ft) = some f) :
    (f ∈ s.files → find_existing_file s vid ft = some f) ∧
    (f ∉ s.files →
      find_existing_file s vid ft = scanDisk s.files vid (extensionsFor ft) ∧
      ∀ g, find_existing_file s vid ft = some g → g ∈ s.files ∧ g ≠ f) := by
  refine ⟨fun hf => find_existing_cache_hit hcache hf,
    fun hf => ⟨find_existing_dangling hcache hf, ?_⟩⟩
  intro g hg
  have hmem := find_existing_mem hg
  exact ⟨hmem, fun hc => hf (hc ▸ hmem)⟩

/-- C3 witness: a present recorded file wins; a dangling entry falls
through to the scan and yields a different, on-disk name. -/
theorem C3_witness :
    find_existing_file ⟨["f.mp3"], [("v_audio", "f.mp3")]⟩ "v" "audio" = some "f.mp3" ∧
    find_existing_file ⟨["other__v.mp3"], [("v_audio", "gone.mp3")]⟩ "v" "audio" =
      scanDisk ["other__v.mp3"] "v" (extensionsFor "audio") := by
  refine ⟨?_, ?_⟩
  · exact (C3_cache_confirmed_wins ⟨["f.mp3"], [("v_audio", "f.mp3")]⟩ "v" "audio" "f.mp3"
      (by decide)).1 (by decide)
  · exact ((C3_cache_confirmed_wins ⟨["other__v.mp3"], [("v_audio", "gone.mp3")]⟩ "v" "audio"
      "gone.mp3" (by decide)).2 (by decide)).1

/-- C6 counterexample: the empty-title fallback embeds the current unix
timestamp, so two calls with the same title and maxLen made at different
clock readings return different strings — `sanitize_title` is not a
function of `(title, maxLen)` alone. -/
theorem C6_counterexample :
    ¬(sanitize_title asciiWord 0 "" 120 = sanitize_title asciiWord 1 "" 120) := by
  decide

/-- C6 (amended): `sanitize_title` is a total function of
`(title, maxLen, current unix time)`; whenever the sanitized core of the
title is non-empty (so the timestamp fallback is not taken) the result is
independent of the clock, and hence any two such calls with the same title
and maxLen return the identical string. -/
theorem C6_amended_deterministic_modulo_clock (w : Char → Bool) (now1 now2 : Nat)
    (title : String) (m : Nat) (hcore : sanitizeCore w title.data ≠ []) :
    sanitize_title w now1 title m = sanitize_title w now2 title m := by
  simp [sanitize_title, hcore]

/-- C6 witness: a title with non-empty sanitized core gives the same result
at two different timestamps. -/
theorem C6_amended_witness :
    sanitize_title asciiWord 5 "Hello" 120 = sanitize_title asciiWord 99 "Hello" 120 :=
  C6_amended_deterministic_modulo_clock asciiWord 5 99 "Hello" 120 (by decide)

/-- C8: `create_lock` returns busy (`none`) exactly when the deterministic
marker file for the key already exists, leaving the directory untouched in
that case; otherwise it atomically creates the marker and returns its path
as the held-lock token.  The check and creation are one step of the model,
mirroring the atomicity of `os.open(..., O_CREAT | O_EXCL)`, and the busy
path neither blocks nor raises. -/
theorem C8_create_lock_spec (key : String) (s : Sys) :
    ((create_lock key s).1 = none ↔ lockName key ∈ s.files) ∧
    ((create_lock key s).1 = none → (create_lock key s).2 = s) ∧
    (lockName key ∉ s.files →
      create_lock key s = (some (lockName key), ⟨lockName key :: s.files, s.cache⟩)) := by
  by_cases h : lockName key ∈ s.files
  · rw [create_lock_busy h]
    refine ⟨Iff.intro (fun _ => h) (fun _ => rfl), fun _ => rfl, fun hc => absurd h hc⟩
  · rw [create_lock_free h]
    refine ⟨Iff.intro (fun hc => ?_) (fun hc => absurd hc h), fun hc => ?_, fun _ => rfl⟩
    · exact absurd hc (by simp)
    · exact absurd hc (by simp)

/-- C8 witness: acquiring on an empty directory creates the marker and
returns its path; re-acquiring with the marker present reports busy. -/
theorem C8_witness :
    create_lock "v1_audio" ⟨[], []⟩ =
      (some (lockName "v1_audio"), ⟨[lockName "v1_audio"], []⟩) ∧
    (create_lock "v1_audio" ⟨[lockName "v1_audio"], []⟩).1 = none := by
  refine ⟨?_, ?_⟩
  · exact (C8_create_lock_spec "v1_audio" ⟨[], []⟩).2.2 (by decide)
  · exact (C8_create_lock_spec "v1_audio" ⟨[lockName "v1_audio"], []⟩).1.mpr (by decide)

/-- C1: whenever a `/download` or `/get` handler successfully acquires the
lock for a cache key — that is, the pre-check finds no existing file and the
key has no marker on disk, which is exactly when `create_lock` returns a
non-`None` lockfile path — the lock marker file for that key is absent from
the downloads directory when the handler returns, for every downloader
outcome carried by `env.outcome`: successful download,
download-completed-but-file-not-found, external-tool non-zero exit,
external-tool timeout, and any other exception. -/
theorem C1_lock_released_on_every_exit (env : DlEnv) (vid title u t : String) (s : Sys)
    (hfind : find_existing_file s vid (effectiveType t) = none)
    (hlock : lockName (mkKey vid (effectiveType t)) ∉ s.files) :
    lockName (mkKey vid (effectiveType t)) ∉
      (download_media env vid title ⟨u, t⟩ s).2.1.files ∧
    lockName (mkKey vid (effectiveType t)) ∉
      (get_media env vid title ⟨u, t⟩ s).2.1.files :=
  ⟨handleCore_lock_released hfind hlock, handleCore_lock_released hfind hlock⟩

/-- C1 witness: a concrete successful download from an empty directory
leaves no lock marker in either handler's final state. -/
theorem C1_witness :
    lockName (mkKey "v1" (effectiveType "audio")) ∉
      (download_media ⟨.success ["Song__v1.mp3"], true, fun _ s => s, asciiWord, 0⟩
        "v1" "Song" ⟨"u", "audio"⟩ ⟨[], []⟩).2.1.files ∧
    lockName (mkKey "v1" (effectiveType "audio")) ∉
      (get_media ⟨.success ["Song__v1.mp3"], true, fun _ s => s, asciiWord, 0⟩
        "v1" "Song" ⟨"u", "audio"⟩ ⟨[], []⟩).2.1.files :=
  C1_lock_released_on_every_exit ⟨.success ["Song__v1.mp3"], true, fun _ s => s, asciiWord, 0⟩
    "v1" "Song" "u" "audio" ⟨[], []⟩ (by decide) (by decide)

/-- C5: with `maxLen = 120`, and for every class `w` that (like Python's
Unicode `\w`) contains no reserved character, no control character and no
whitespace character, `sanitize_title` returns a non-empty string of length
at most 120 that contains none of `< > : " / \ | ? *`, contains no control
character, and neither begins nor ends with underscore, dot or dash; for
whitespace-only (in particular empty) input the result is the non-empty
timestamp fallback token, which starts with `f`. -/
theorem C5_sanitize_safe (w : Char → Bool) (now : Nat) (title : String)
    (hRes : ∀ c ∈ reservedChars, w c = false)
    (hCtl : ∀ c, pyIsControl c = true → w c = false)
    (hWs : ∀ c, c.isWhitespace = true → w c = false) :
    sanitize_title w now title 120 ≠ "" ∧
    (sanitize_title w now title 120).length ≤ 120 ∧
    (sanitize_title w now title 120).data.all
      (fun c => !(decide (c ∈ reservedChars)) && !pyIsControl c) = true ∧
    headOk (sanitize_title w now title 120).data = true ∧
    lastOk (sanitize_title w now title 120).data = true ∧
    (title.data.all Char.isWhitespace = true →
      (sanitize_title w now title 120).data.head? = some 'f' ∧
        sanitize_title w now title 120 ≠ "") := by
  obtain ⟨h1, h2, h3, h4⟩ := sanitize_shape w now title 120 (by omega)
  have hne : sanitize_title w now title 120 ≠ "" := by
    intro hc
    exact h1 (by rw [hc])
  refine ⟨hne, h2, ?_, h3, h4, ?_⟩
  · rw [List.all_eq_true]
    intro c hc
    rcases mem_sanitize hc with hk | hk | hk
    · rw [keepChar, Bool.or_eq_true] at hk
      rcases hk with hk | hk
      · have hres : c ∉ reservedChars := fun hmem => by
          rw [hRes c hmem] at hk
          cases hk
        have hctl : pyIsControl c = false := by
          cases hctl : pyIsControl c
          · rfl
          · rw [hCtl c hctl] at hk
            cases hk
        simp [hres, hctl]
      · simp [isSep_not_reserved hk, isSep_not_control hk]
    · simp only [List.mem_cons, List.not_mem_nil, or_false] at hk
      rcases hk with hk | hk | hk | hk <;> subst hk <;> decide
    · rcases hk with ⟨dd, hd10, hdc⟩
      subst hdc
      obtain ⟨hr, hc2⟩ := decDigit_safe hd10
      simp [hr, hc2]
  · intro hws
    have hh := sanitize_whitespace_fallback w now title 120 (by omega) hWs
      (List.all_eq_true.mp hws)
    exact ⟨hh, hne⟩

/-- C5 witness: a concrete unsafe title is sanitized to a safe token, and a
whitespace-only title yields the fallback. -/
theorem C5_witness :
    sanitize_title asciiWord 0 "_a<b>: c/d\\e|f?g*h._" 120 ≠ "" ∧
    (sanitize_title asciiWord 0 "_a<b>: c/d\\e|f?g*h._" 120).length ≤ 120 ∧
    (sanitize_title asciiWord 0 "_a<b>: c/d\\e|f?g*h._" 120).data.all
      (fun c => !(decide (c ∈ reservedChars)) && !pyIsControl c) = true ∧
    headOk (sanitize_title asciiWord 0 "_a<b>: c/d\\e|f?g*h._" 120).data = true ∧
    lastOk (sanitize_title asciiWord 0 "_a<b>: c/d\\e|f?g*h._" 120).data = true ∧
    (sanitize_title asciiWord 7 " \t " 120).data.head? = some 'f' := by
  have hRes : ∀ c ∈ reservedChars, asciiWord c = false := by decide
  have hCtl : ∀ c, pyIsControl c = true → asciiWord c = false := by
    intro c hc
    rw [pyIsControl, decide_eq_true_eq] at hc
    rw [asciiWord]
    simp only [decide_eq_false_iff_not]
    omega
  have hWs : ∀ c, c.isWhitespace = true → asciiWord c = false := by
    intro c hc
    simp only [Char.isWhitespace, Bool.or_eq_true, decide_eq_true_eq] at hc
    rcases hc with ((h | h) | h) | h <;> subst h <;> decide
  obtain ⟨g1, g2, g3, g4, g5, _⟩ :=
    C5_sanitize_safe asciiWord 0 "_a<b>: c/d\\e|f?g*h._" hRes hCtl hWs
  obtain ⟨_, _, _, _, _, g6⟩ := C5_sanitize_safe asciiWord 7 " \t " hRes hCtl hWs
  exact ⟨g1, g2, g3, g4, g5, (g6 (by decide)).1⟩

/-- C10: any request whose `type`, after lowercasing, is neither `"audio"`
nor `"video"` (the empty type included) is silently treated as `"audio"` by
both `/download` and `/get` — the run is identical to the same request with
type `"audio"` — and the effective kind used for cache key, lock and format
selection is always exactly one of `"audio"` and `"video"`. -/
theorem C10_invalid_type_defaults_audio (env : DlEnv) (vid title u t : String) (s : Sys)
    (h1 : pyLower t ≠ "audio") (h2 : pyLower t ≠ "video") :
    effectiveType t = "audio" ∧
    download_media env vid title ⟨u, t⟩ s = download_media env vid title ⟨u, "audio"⟩ s ∧
    get_media env vid title ⟨u, t⟩ s = get_media env vid title ⟨u, "audio"⟩ s ∧
    (∀ t2, effectiveType t2 = "audio" ∨ effectiveType t2 = "video") := by
  have heff : effectiveType t = "audio" := by
    by_cases ht : t = ""
    · subst ht
      decide
    · simp [effectiveType, if_neg ht, h1, h2]
  have ha : effectiveType "audio" = "audio" := by decide
  refine ⟨heff, ?_, ?_, ?_⟩
  · rw [download_media_eq, download_media_eq, heff, ha]
  · rw [get_media_eq, get_media_eq, heff, ha]
  · intro t2
    rw [effectiveType]
    by_cases hau : pyLower (if t2 = "" then "audio" else t2) = "audio"
    · simp [hau]
    · by_cases hv : pyLower (if t2 = "" then "audio" else t2) = "video"
      · simp [hau, hv]
      · simp [hau, hv]

/-- C10 witness: the type `"Playlist"` lowers to `"playlist"`, is
substituted by `"audio"`, and yields exactly the run of an `"audio"`
request. -/
theorem C10_witness :
    effectiveType "Playlist" = "audio" ∧
    download_media ⟨.timedOut, true, fun _ s => s, asciiWord, 0⟩ "v1" "T"
        ⟨"u", "Playlist"⟩ ⟨[], []⟩ =
      download_media ⟨.timedOut, true, fun _ s => s, asciiWord, 0⟩ "v1" "T"
        ⟨"u", "audio"⟩ ⟨[], []⟩ := by
  have h := C10_invalid_type_defaults_audio ⟨.timedOut, true, fun _ s => s, asciiWord, 0⟩
    "v1" "T" "u" "Playlist" ⟨[], []⟩ (by decide) (by decide)
  exact ⟨h.1, h.2.1⟩

/-- C4: running `/download` twice in sequence with the same url and type
(hence the same resolved id), with no intervening cache clear or file
deletion, yields the same resolved filename in both responses; the second
call takes the existing-file path (empty event trace, so no downloader
invocation and no lock activity) and reports `cached: true`; across both
runs the external downloader is invoked at most once.  The hypotheses say
that the first run produced a success response and that the key's cache
entry does not name the key's own lock marker file (cache values are
artifact filenames, never lock markers). -/
theorem C4_idempotent_pipeline (env1 env2 : DlEnv) (vid title u t : String) (s : Sys)
    (hcache : cacheGet s.cache (mkKey vid (effectiveType t)) ≠
      some (lockName (mkKey vid (effectiveType t))))
    (hok : respFile (download_media env1 vid title ⟨u, t⟩ s).1 ≠ none) :
    respFile (download_media env2 vid title ⟨u, t⟩
        (download_media env1 vid title ⟨u, t⟩ s).2.1).1 =
      respFile (download_media env1 vid title ⟨u, t⟩ s).1 ∧
    cachedFlag (download_media env2 vid title ⟨u, t⟩
        (download_media env1 vid title ⟨u, t⟩ s).2.1).1 = some true ∧
    (download_media env2 vid title ⟨u, t⟩
        (download_media env1 vid title ⟨u, t⟩ s).2.1).2.2 = [] ∧
    (download_media env1 vid title ⟨u, t⟩ s).2.2.count Ev.invoke +
      (download_media env2 vid title ⟨u, t⟩
        (download_media env1 vid title ⟨u, t⟩ s).2.1).2.2.count Ev.invoke ≤ 1 := by
  obtain ⟨f, hf⟩ : ∃ f, respFile (download_media env1 vid title ⟨u, t⟩ s).1 = some f := by
    cases hr : respFile (download_media env1 vid title ⟨u, t⟩ s).1 with
    | none => exact absurd hr hok
    | some g => exact ⟨g, rfl⟩
  have hpost := @handleCore_post Deliver.json env1 vid title (effectiveType t) f s hcache hf
  have hfind2 : find_existing_file (download_media env1 vid title ⟨u, t⟩ s).2.1 vid
      (effectiveType t) = some f :=
    find_existing_cache_hit hpost.1 hpost.2
  have h2 : download_media env2 vid title ⟨u, t⟩ (download_media env1 vid title ⟨u, t⟩ s).2.1 =
      (successResp .json (effectiveType t) f true,
        cachePut (mkKey vid (effectiveType t)) f (download_media env1 vid title ⟨u, t⟩ s).2.1,
        []) := handleCore_early hfind2
  rw [h2]
  refine ⟨?_, rfl, rfl, ?_⟩
  · rw [respFile_successResp, hf]
  · have hb := handleCore_invoke_le_one Deliver.json env1 vid title (effectiveType t)
      (mkKey vid (effectiveType t)) s
    simp only [List.count_nil, Nat.add_zero]
    exact hb

/-- C4 witness: with the artifact already on disk, two consecutive
`/download` runs resolve the same filename, the second is cached with an
empty trace, and the downloader never runs. -/
theorem C4_witness :
    respFile (download_media ⟨.timedOut, true, fun _ s => s, asciiWord, 0⟩ "v1" "T"
        ⟨"u", "audio"⟩
        (download_media ⟨.timedOut, true, fun _ s => s, asciiWord, 0⟩ "v1" "T"
          ⟨"u", "audio"⟩ ⟨["Song__v1.mp3"], []⟩).2.1).1 =
      respFile (download_media ⟨.timedOut, true, fun _ s => s, asciiWord, 0⟩ "v1" "T"
        ⟨"u", "audio"⟩ ⟨["Song__v1.mp3"], []⟩).1 ∧
    cachedFlag (download_media ⟨.timedOut, true, fun _ s => s, asciiWord, 0⟩ "v1" "T"
        ⟨"u", "audio"⟩
        (download_media ⟨.timedOut, true, fun _ s => s, asciiWord, 0⟩ "v1" "T"
          ⟨"u", "audio"⟩ ⟨["Song__v1.mp3"], []⟩).2.1).1 = some true ∧
    (download_media ⟨.timedOut, true, fun _ s => s, asciiWord, 0⟩ "v1" "T"
        ⟨"u", "audio"⟩
        (download_media ⟨.timedOut, true, fun _ s => s, asciiWord, 0⟩ "v1" "T"
          ⟨"u", "audio"⟩ ⟨["Song__v1.mp3"], []⟩).2.1).2.2 = [] ∧
    (download_media ⟨.timedOut, true, fun _ s => s, asciiWord, 0⟩ "v1" "T"
        ⟨"u", "audio"⟩ ⟨["Song__v1.mp3"], []⟩).2.2.count Ev.invoke +
      (download_media ⟨.timedOut, true, fun _ s => s, asciiWord, 0⟩ "v1" "T"
        ⟨"u", "audio"⟩
        (download_media ⟨.timedOut, true, fun _ s => s, asciiWord, 0⟩ "v1" "T"
          ⟨"u", "audio"⟩ ⟨["Song__v1.mp3"], []⟩).2.1).2.2.count Ev.invoke ≤ 1 :=
  C4_idempotent_pipeline ⟨.timedOut, true, fun _ s => s, asciiWord, 0⟩
    ⟨.timedOut, true, fun _ s => s, asciiWord, 0⟩ "v1" "T" "u" "audio"
    ⟨["Song__v1.mp3"], []⟩ (by decide) (by decide)

/-- C7: a request that finds the lock busy never itself acquires or creates
the lock (no acquisition event ever appears in its trace); it polls the disk
reconciliation once per 1-second sleep for at most 180 attempts; if the
polls all miss it returns the HTTP 500 timeout error with exactly 180 polls,
and if a matching file first appears at poll `k` it returns success right
then (`cached: true` on `/download`, the file body on `/get`) after exactly
`k + 1` polls; the busy-wait timeout message is distinct from the
download-phase timeout message. -/
theorem C7_busy_polls_without_lock (env : DlEnv) (vid title u t : String) (s : Sys)
    (hfind : find_existing_file s vid (effectiveType t) = none)
    (hlock : lockName (mkKey vid (effectiveType t)) ∈ s.files) :
    (Ev.acquireOk ∉ (download_media env vid title ⟨u, t⟩ s).2.2 ∧
     Ev.acquireOk ∉ (get_media env vid title ⟨u, t⟩ s).2.2) ∧
    ((download_media env vid title ⟨u, t⟩ s).2.2.count Ev.poll ≤ 180 ∧
     (get_media env vid title ⟨u, t⟩ s).2.2.count Ev.poll ≤ 180) ∧
    ((∀ k, k < 180 →
        find_existing_file (iterFrom env.step 0 s (k + 1)) vid (effectiveType t) = none) →
      (download_media env vid title ⟨u, t⟩ s).1 =
          .err 500 "Timeout waiting for concurrent download" ∧
        (get_media env vid title ⟨u, t⟩ s).1 =
          .err 500 "Timeout waiting for concurrent download" ∧
        (download_media env vid title ⟨u, t⟩ s).2.2.count Ev.poll = 180) ∧
    (∀ k f, k < 180 →
      find_existing_file (iterFrom env.step 0 s (k + 1)) vid (effectiveType t) = some f →
      (∀ j, j < k →
        find_existing_file (iterFrom env.step 0 s (j + 1)) vid (effectiveType t) = none) →
      (download_media env vid title ⟨u, t⟩ s).1 = .ok (effectiveType t) f true ∧
      (get_media env vid title ⟨u, t⟩ s).1 = .fileResp f ∧
      (download_media env vid title ⟨u, t⟩ s).2.2.count Ev.poll = k + 1) ∧
    ("Timeout waiting for concurrent download" : String) ≠
      "Download timeout - video may be too long or connection too slow" := by
  have hd := @handleCore_busy Deliver.json env vid title (effectiveType t)
    (mkKey vid (effectiveType t)) s hfind hlock
  have hg := @handleCore_busy Deliver.raw env vid title (effectiveType t)
    (mkKey vid (effectiveType t)) s hfind hlock
  refine ⟨⟨?_, ?_⟩, ⟨?_, ?_⟩, ?_, ?_, by decide⟩
  · rw [download_media_eq, hd]
    intro hmem
    rcases List.mem_cons.mp hmem with h | h
    · cases h
    · exact absurd (waitLoop_trace_poll 180 0 s Ev.acquireOk h) (by decide)
  · rw [get_media_eq, hg]
    intro hmem
    rcases List.mem_cons.mp hmem with h | h
    · cases h
    · exact absurd (waitLoop_trace_poll 180 0 s Ev.acquireOk h) (by decide)
  · rw [download_media_eq, hd]
    dsimp only
    rw [List.count_cons_of_ne (by decide)]
    exact le_trans (List.count_le_length _ _) (waitLoop_trace_len 180 0 s)
  · rw [get_media_eq, hg]
    dsimp only
    rw [List.count_cons_of_ne (by decide)]
    exact le_trans (List.count_le_length _ _) (waitLoop_trace_len 180 0 s)
  · intro hm
    have hwj := @waitLoop_timeout env.step Deliver.json vid (effectiveType t)
      (mkKey vid (effectiveType t)) 180 0 s hm
    have hwr := @waitLoop_timeout env.step Deliver.raw vid (effectiveType t)
      (mkKey vid (effectiveType t)) 180 0 s hm
    refine ⟨?_, ?_, ?_⟩
    · rw [download_media_eq, hd, hwj]
    · rw [get_media_eq, hg, hwr]
    · rw [download_media_eq, hd, hwj]
      dsimp only
      rw [List.count_cons_of_ne (by decide)]
      exact List.count_replicate_self _ _
  · intro k f hk hkf hbefore
    have hwj := @waitLoop_hit env.step Deliver.json vid (effectiveType t)
      (mkKey vid (effectiveType t)) f 180 k 0 s hk hkf hbefore
    have hwr := @waitLoop_hit env.step Deliver.raw vid (effectiveType t)
      (mkKey vid (effectiveType t)) f 180 k 0 s hk hkf hbefore
    refine ⟨?_, ?_, ?_⟩
    · rw [download_media_eq, hd, hwj]
      rfl
    · rw [get_media_eq, hg, hwr]
      rfl
    · rw [download_media_eq, hd, hwj]
      dsimp only
      rw [List.count_cons_of_ne (by decide)]
      exact List.count_replicate_self _ _

/-- C7 witness: with the marker present and nothing ever appearing on disk,
the `/download` busy path acquires nothing and times out with the HTTP 500
busy-wait error. -/
theorem C7_witness :
    Ev.acquireOk ∉ (download_media ⟨.success [], true, fun _ s => s, asciiWord, 0⟩
        "v1" "T" ⟨"u", "audio"⟩ ⟨[lockName (mkKey "v1" "audio")], []⟩).2.2 ∧
    (download_media ⟨.success [], true, fun _ s => s, asciiWord, 0⟩
        "v1" "T" ⟨"u", "audio"⟩ ⟨[lockName (mkKey "v1" "audio")], []⟩).1 =
      .err 500 "Timeout waiting for concurrent download" := by
  have h := C7_busy_polls_without_lock ⟨.success [], true, fun _ s => s, asciiWord, 0⟩
    "v1" "T" "u" "audio" ⟨[lockName (mkKey "v1" "audio")], []⟩ (by decide) (by decide)
  have hm : ∀ k, k < 180 →
      find_existing_file (iterFrom (fun _ s => s) 0 ⟨[lockName (mkKey "v1" "audio")], []⟩ (k + 1))
        "v1" (effectiveType "audio") = none := by
    intro k hk
    rw [iterFrom_const]
    decide
  exact ⟨h.1.1, (h.2.2.1 hm).1⟩

/-- C9: after a successful download invocation that left the artifact `df`
findable on disk, the rename to the clean name `<sanitized-title>.<ext>` is
performed only when the clean name is not already taken: an existing file
with the clean name is never clobbered (it is still present afterwards) and
the id-suffixed `df` is what is cached and returned; a rename that is
attempted but fails is non-fatal, with `df` likewise cached and returned;
only a successful rename substitutes the clean name. -/
theorem C9_rename_only_if_safe (d : Deliver) (renameOk : Bool) (w : Char → Bool) (now : Nat)
    (vid title ft ck clean df : String) (newFiles : List String) (s : Sys)
    (hclean : clean = sanitize_title w now title 120 ++ "." ++
      (if ft = "audio" then "mp3" else "mp4"))
    (hfound : find_existing_file ⟨fsAddList newFiles s.files, s.cache⟩ vid ft = some df) :
    (clean ∈ fsAddList newFiles s.files →
      tryDownload d (.success newFiles) renameOk w now vid title ft ck (lockName ck) s =
        (successResp d ft df false,
          remove_lock (lockName ck) (cachePut ck df ⟨fsAddList newFiles s.files, s.cache⟩),
          [Ev.invoke]) ∧
      clean ∈ (tryDownload d (.success newFiles) renameOk w now vid title ft ck
          (lockName ck) s).2.1.files) ∧
    (df ≠ clean → clean ∉ fsAddList newFiles s.files → renameOk = false →
      tryDownload d (.success newFiles) renameOk w now vid title ft ck (lockName ck) s =
        (successResp d ft df false,
          remove_lock (lockName ck) (cachePut ck df ⟨fsAddList newFiles s.files, s.cache⟩),
          [Ev.invoke])) ∧
    (df ≠ clean → clean ∉ fsAddList newFiles s.files → renameOk = true →
      tryDownload d (.success newFiles) renameOk w now vid title ft ck (lockName ck) s =
        (successResp d ft clean false,
          remove_lock (lockName ck) (cachePut ck clean
            (fsRename df clean ⟨fsAddList newFiles s.files, s.cache⟩)),
          [Ev.invoke])) := by
  subst hclean
  have key : ∀ p : String × Sys,
      renameStep renameOk df (sanitize_title w now title 120 ++ "." ++
        (if ft = "audio" then "mp3" else "mp4")) ⟨fsAddList newFiles s.files, s.cache⟩ = p →
      tryDownload d (.success newFiles) renameOk w now vid title ft ck (lockName ck) s =
        (successResp d ft p.1 false, remove_lock (lockName ck) (cachePut ck p.1 p.2),
          [Ev.invoke]) := by
    intro p hp
    rw [tryDownload.eq_def]
    dsimp only
    rw [downloadSuccess]
    rw [hfound]
    dsimp only
    rw [hp]
  refine ⟨fun hex => ?_, fun hne hnex hro => ?_, fun hne hnex hro => ?_⟩
  · have heq := key _ (renameStep_skip (fun hcon => hcon.2 hex))
    refine ⟨heq, ?_⟩
    rw [heq]
    dsimp only
    rw [remove_lock_files, cachePut_files]
    exact (List.mem_erase_of_ne sanitize_append_ne_lock).mpr hex
  · subst hro
    exact key _ (renameStep_fail ⟨hne, hnex⟩)
  · subst hro
    exact key _ (renameStep_do ⟨hne, hnex⟩)

/-- C9 witness: a clean-named file already on disk survives a fresh
download of the same video, whose id-suffixed name is returned instead. -/
theorem C9_witness :
    tryDownload .json (.success ["Song__v1.mp3"]) true asciiWord 0 "v1" "Song" "audio"
        "v1_audio" (lockName "v1_audio") ⟨["Song.mp3"], []⟩ =
      (successResp .json "audio" "Song__v1.mp3" false,
        remove_lock (lockName "v1_audio") (cachePut "v1_audio" "Song__v1.mp3"
          ⟨fsAddList ["Song__v1.mp3"] ["Song.mp3"], []⟩),
        [Ev.invoke]) ∧
    "Song.mp3" ∈ (tryDownload .json (.success ["Song__v1.mp3"]) true asciiWord 0 "v1" "Song"
        "audio" "v1_audio" (lockName "v1_audio") ⟨["Song.mp3"], []⟩).2.1.files := by
  have h := C9_rename_only_if_safe .json true asciiWord 0 "v1" "Song" "audio" "v1_audio"
    "Song.mp3" "Song__v1.mp3" ["Song__v1.mp3"] ⟨["Song.mp3"], []⟩ (by decide) (by decide)
  exact h.1 (by decide)
